import Mathlib

/-!
Verification of the `merge-engine` crate of TinyAGI/tinyclaw.

The development shallowly embeds:
* the diff3 core of `src/merge-engine/src/diff3.rs` (`diff3_hunks`,
  `diff3_merge`, `compute_edits`, `flush_pending`, `get_insert_at`,
  `get_action_at`, `coalesce_hunks`),
* the conflict-marker parser and the CLI control flow of
  `src/merge-engine/src/main.rs` (`parse_conflict_markers`,
  `resolve_stdin`, the positional driver of `main`).

Texts are Lean `String`s (Rust `&str`); a line is a `String`.  The third
party `similar` crate's `TextDiff::from_lines` is modelled from the spec:
a longest-common-subsequence line diff over newline-inclusive tokens
(each token carries its terminating `\n`); this is the one component whose
code is not in the repository.  Rust's `str::lines` (which also strips a
`\r` preceding the `\n`) and `str::starts_with` are modelled directly.
All definitions are structurally recursive so that they compute by kernel
reduction.
-/

set_option maxRecDepth 4000

namespace MergeEngine

/-- Modelled from the spec: the immutable input triple `MergeScenario`
(`src/merge-engine/src/types.rs` is not in the source tree). -/
structure MergeScenario where
  base : String
  left : String
  right : String
deriving DecidableEq, Repr

/-- Modelled from the spec: the four-variant hunk type `Diff3Hunk`. -/
inductive Diff3Hunk where
  | Stable (lines : List String)
  | LeftChanged (lines : List String)
  | RightChanged (lines : List String)
  | Conflict (base left right : List String)
deriving DecidableEq, Repr

/-- Modelled from the spec: the top-level `MergeResult`. -/
inductive MergeResult where
  | Resolved (content : String)
  | Conflict (base left right : String)
deriving DecidableEq, Repr

/-- What happened to a base line in one side of the merge (`enum Edit`). -/
inductive Edit where
  | Keep
  | Delete
  | Replace (lines : List String)
deriving DecidableEq, Repr

/-- An edit operation at a specific base line position (`enum EditOp`). -/
inductive EditOp where
  | Insert (before_base_idx : Nat) (lines : List String)
  | Kept (base_idx : Nat)
  | Deleted (base_idx : Nat)
  | Replaced (base_idx : Nat) (lines : List String)
deriving DecidableEq, Repr

/-- A single change of the `similar` line diff: tag plus the full
newline-inclusive token (`change.value()`). -/
inductive Change where
  | Equal (s : String)
  | Delete (s : String)
  | Insert (s : String)
deriving DecidableEq, Repr

/-! ### Line splitting

`similar`'s line tokenizer splits after every `'\n'`, keeping the
newline inside the token.  Rust's `str::lines` additionally strips a
`'\r'` that directly precedes the `'\n'`. -/

/-- Split a char list into newline-inclusive tokens (split after each
`'\n'`; the final token may lack the newline). -/
def splitInclusiveL : List Char → List (List Char)
  | [] => []
  | c :: cs =>
    if c = '\n' then [c] :: splitInclusiveL cs
    else
      match splitInclusiveL cs with
      | [] => [[c]]
      | l :: ls => (c :: l) :: ls

/-- The newline-inclusive line tokens of a text, as used by the
`similar` diff. -/
def tokensOf (s : String) : List String :=
  (splitInclusiveL s.data).map String.mk

/-- Remove every trailing `'\n'` (Rust `trim_end_matches('\n')`). -/
def trimAllNlL : List Char → List Char
  | [] => []
  | c :: cs =>
    match trimAllNlL cs with
    | [] => if c = '\n' then [] else [c]
    | r => c :: r

/-- `trim_end_matches('\n')` on a `String`. -/
def trimAllNl (s : String) : String :=
  String.mk (trimAllNlL s.data)

/-- Drop one terminating `"\n"` or `"\r\n"` (the line-ending removal of
Rust `str::lines`). -/
def stripEndingL : List Char → List Char
  | [] => []
  | [c] => if c = '\n' then [] else [c]
  | [c, d] => if d = '\n' then (if c = '\r' then [] else [c]) else [c, d]
  | c :: d :: e :: rest => c :: stripEndingL (d :: e :: rest)

/-- `stripEndingL` on a `String`. -/
def stripEnding (s : String) : String :=
  String.mk (stripEndingL s.data)

/-- Rust `str::lines`: newline-separated lines, a `'\r'` before the
separator removed, no trailing empty line for a final separator. -/
def rustLines (s : String) : List String :=
  (tokensOf s).map stripEnding

/-! ### The LCS line diff (model of `similar::TextDiff::from_lines`)

Modelled from the spec: a longest-common-subsequence line diff, emitting
`Equal`/`Delete`/`Insert` changes; on a tie the deletion is taken first.
Fuel makes the two-list recursion structural. -/

/-- Length of a longest common subsequence, fuelled. -/
def lcsLenF : Nat → List String → List String → Nat
  | 0, _, _ => 0
  | _ + 1, [], _ => 0
  | _ + 1, _ :: _, [] => 0
  | fuel + 1, x :: xs, y :: ys =>
    if x = y then lcsLenF fuel xs ys + 1
    else max (lcsLenF fuel xs (y :: ys)) (lcsLenF fuel (x :: xs) ys)

/-- Length of a longest common subsequence of two token lists. -/
def lcsLen (xs ys : List String) : Nat :=
  lcsLenF (xs.length + ys.length) xs ys

/-- LCS diff between two token lists, fuelled. -/
def lcsDiffF : Nat → List String → List String → List Change
  | 0, _, _ => []
  | _ + 1, [], ys => ys.map Change.Insert
  | fuel + 1, x :: xs, [] => Change.Delete x :: lcsDiffF fuel xs []
  | fuel + 1, x :: xs, y :: ys =>
    if x = y then Change.Equal x :: lcsDiffF fuel xs ys
    else if lcsLen (x :: xs) ys ≤ lcsLen xs (y :: ys) then
      Change.Delete x :: lcsDiffF fuel xs (y :: ys)
    else
      Change.Insert y :: lcsDiffF fuel (x :: xs) ys

/-- The LCS line diff of two token lists (model of the `similar` crate's
`TextDiff::from_lines(base, target).iter_all_changes()`). -/
def lcsDiff (xs ys : List String) : List Change :=
  lcsDiffF (xs.length + ys.length) xs ys

/-! ### `compute_edits` -/

/-- Flush pending deletes and inserts into ops (`flush_pending`). -/
def flush_pending (pd : List Nat) (pins : List String) (next_base_idx : Nat) :
    List EditOp :=
  match pd, pins with
  | [], [] => []
  | [], p :: ps => [EditOp.Insert next_base_idx (p :: ps)]
  | d :: ds, [] => EditOp.Deleted d :: ds.map EditOp.Deleted
  | d :: ds, p :: ps => EditOp.Replaced d (p :: ps) :: ds.map EditOp.Deleted

/-- The change-walking loop body of `compute_edits`: `n` is the base line
count used by the final flush, `bi` the current base index, `pd`/`pins`
the pending deletes and inserts. -/
def buildOps (n : Nat) : Nat → List Nat → List String → List Change → List EditOp
  | _, pd, pins, [] => flush_pending pd pins n
  | bi, pd, pins, Change.Equal _ :: rest =>
    flush_pending pd pins bi ++ EditOp.Kept bi :: buildOps n (bi + 1) [] [] rest
  | bi, pd, pins, Change.Delete _ :: rest =>
    (if pins ≠ [] ∧ pd = [] then [EditOp.Insert bi pins] else [])
      ++ buildOps n (bi + 1) (pd ++ [bi])
          (if pins ≠ [] ∧ pd = [] then [] else pins) rest
  | bi, pd, pins, Change.Insert v :: rest =>
    buildOps n bi pd (pins ++ [trimAllNl v]) rest

/-- Compute edits from base to target (`compute_edits`). -/
def compute_edits (base target : String) : List EditOp :=
  buildOps (rustLines base).length 0 [] []
    (lcsDiff (tokensOf base) (tokensOf target))

/-! ### The hunk walk of `diff3_hunks` -/

/-- Collect the insertions anchored before `base_idx` from the front of
the edit list (`get_insert_at`); returns them with the remaining edits. -/
def get_insert_at : List EditOp → Nat → List String × List EditOp
  | EditOp.Insert bidx lines :: rest, bi =>
    if bidx = bi then
      let more := get_insert_at rest bi
      (lines ++ more.1, more.2)
    else ([], EditOp.Insert bidx lines :: rest)
  | es, _ => ([], es)

/-- The action recorded for `base_idx` at the front of the edit list
(`get_action_at`); a non-matching front op means `Keep` and is not
consumed. -/
def get_action_at : List EditOp → Nat → Edit × List EditOp
  | [], _ => (Edit.Keep, [])
  | EditOp.Kept bi :: rest, idx =>
    if bi = idx then (Edit.Keep, rest) else (Edit.Keep, EditOp.Kept bi :: rest)
  | EditOp.Deleted bi :: rest, idx =>
    if bi = idx then (Edit.Delete, rest)
    else (Edit.Keep, EditOp.Deleted bi :: rest)
  | EditOp.Replaced bi ls :: rest, idx =>
    if bi = idx then (Edit.Replace ls, rest)
    else (Edit.Keep, EditOp.Replaced bi ls :: rest)
  | EditOp.Insert bidx ls :: rest, _ =>
    (Edit.Keep, EditOp.Insert bidx ls :: rest)

/-- The insertion prelude of the walk (`diff3.rs` lines 37-55): combine
the insertions both sides anchored at the current base position. -/
def insertHunks (left_insert right_insert : List String) : List Diff3Hunk :=
  if left_insert ≠ [] ∨ right_insert ≠ [] then
    if left_insert ≠ [] ∧ right_insert ≠ [] then
      if left_insert = right_insert then [Diff3Hunk.LeftChanged left_insert]
      else [Diff3Hunk.Conflict [] left_insert right_insert]
    else if left_insert ≠ [] then [Diff3Hunk.LeftChanged left_insert]
    else [Diff3Hunk.RightChanged right_insert]
  else []

/-- The per-base-line classification table of the walk
(`diff3.rs` lines 65-115). -/
def classify (base_line : String) : Edit → Edit → List Diff3Hunk
  | Edit.Keep, Edit.Keep => [Diff3Hunk.Stable [base_line]]
  | Edit.Replace new_lines, Edit.Keep => [Diff3Hunk.LeftChanged new_lines]
  | Edit.Delete, Edit.Keep => [Diff3Hunk.LeftChanged []]
  | Edit.Keep, Edit.Replace new_lines => [Diff3Hunk.RightChanged new_lines]
  | Edit.Keep, Edit.Delete => [Diff3Hunk.RightChanged []]
  | Edit.Delete, Edit.Delete => []
  | Edit.Replace left_new, Edit.Replace right_new =>
    if left_new = right_new then [Diff3Hunk.LeftChanged left_new]
    else [Diff3Hunk.Conflict [base_line] left_new right_new]
  | Edit.Replace left_new, Edit.Delete =>
    [Diff3Hunk.Conflict [base_line] left_new []]
  | Edit.Delete, Edit.Replace right_new =>
    [Diff3Hunk.Conflict [base_line] [] right_new]

/-- The while loop of `diff3_hunks`: `rem` is the list of base lines
from index `bi` on (the loop accesses `base_lines[bi]` only while
`bi < base_lines.len()`, i.e. in the cons branch). -/
def walkAux (bi : Nat) (rem : List String) (le re : List EditOp) :
    List Diff3Hunk :=
  let gl := get_insert_at le bi
  let gr := get_insert_at re bi
  let pre := insertHunks gl.1 gr.1
  match rem with
  | [] => pre
  | base_line :: rest =>
    let al := get_action_at gl.2 bi
    let ar := get_action_at gr.2 bi
    pre ++ classify base_line al.1 ar.1 ++ walkAux (bi + 1) rest al.2 ar.2

/-! ### Coalescing -/

/-- Do two hunks carry the same variant tag (the `should_merge` test)? -/
def sameTag : Diff3Hunk → Diff3Hunk → Bool
  | Diff3Hunk.Stable _, Diff3Hunk.Stable _ => true
  | Diff3Hunk.LeftChanged _, Diff3Hunk.LeftChanged _ => true
  | Diff3Hunk.RightChanged _, Diff3Hunk.RightChanged _ => true
  | Diff3Hunk.Conflict _ _ _, Diff3Hunk.Conflict _ _ _ => true
  | _, _ => false

/-- Merge a same-tag pair by payload concatenation; `none` is the
`unreachable!()` branch of the source's inner match. -/
def mergeSame : Diff3Hunk → Diff3Hunk → Option Diff3Hunk
  | Diff3Hunk.Stable a, Diff3Hunk.Stable b => some (Diff3Hunk.Stable (a ++ b))
  | Diff3Hunk.LeftChanged a, Diff3Hunk.LeftChanged b =>
    some (Diff3Hunk.LeftChanged (a ++ b))
  | Diff3Hunk.RightChanged a, Diff3Hunk.RightChanged b =>
    some (Diff3Hunk.RightChanged (a ++ b))
  | Diff3Hunk.Conflict ab al ar, Diff3Hunk.Conflict bb bl br =>
    some (Diff3Hunk.Conflict (ab ++ bb) (al ++ bl) (ar ++ br))
  | _, _ => none

/-- One step of the coalescing loop; the accumulator is kept reversed,
so its head is `result.last()`. -/
def coStep (acc : List Diff3Hunk) (h : Diff3Hunk) : List Diff3Hunk :=
  match acc with
  | [] => [h]
  | prev :: accRest =>
    if sameTag h prev then
      match mergeSame prev h with
      | some m => m :: accRest
      | none => h :: prev :: accRest
    else h :: prev :: accRest

/-- `coalesce_hunks`: merge adjacent same-tag hunks, in order. -/
def coalesce_hunks (hunks : List Diff3Hunk) : List Diff3Hunk :=
  (hunks.foldl coStep []).reverse

/-- Instrumented step: `none` when the source would hit `unreachable!()`. -/
def coStepChk (acc : List Diff3Hunk) (h : Diff3Hunk) : Option (List Diff3Hunk) :=
  match acc with
  | [] => some [h]
  | prev :: accRest =>
    if sameTag h prev then (mergeSame prev h).map (· :: accRest)
    else some (h :: prev :: accRest)

/-- Instrumented `coalesce_hunks`: `none` iff the `unreachable!()` branch
would be taken. -/
def coalesce_hunksChk (hunks : List Diff3Hunk) : Option (List Diff3Hunk) :=
  (hunks.foldl (fun acc h => acc.bind (fun a => coStepChk a h)) (some [])).map
    List.reverse

/-! ### `diff3_hunks` and `diff3_merge` -/

/-- The uncoalesced hunk list produced by the walk of `diff3_hunks`. -/
def preHunks (scenario : MergeScenario) : List Diff3Hunk :=
  walkAux 0 (rustLines scenario.base)
    (compute_edits scenario.base scenario.left)
    (compute_edits scenario.base scenario.right)

/-- Run a three-way merge on line-level text (`diff3_hunks`). -/
def diff3_hunks (scenario : MergeScenario) : List Diff3Hunk :=
  coalesce_hunks (preHunks scenario)

/-- `diff3_hunks` with the `unreachable!()` branch instrumented. -/
def diff3_hunksChk (scenario : MergeScenario) : Option (List Diff3Hunk) :=
  coalesce_hunksChk (preHunks scenario)

/-- Append each line followed by `'\n'` (the stitching loop of
`diff3_merge`). -/
def concatNl : List String → String
  | [] => ""
  | l :: ls => l ++ "\n" ++ concatNl ls

/-- `Vec::join("\n")`. -/
def joinLines : List String → String
  | [] => ""
  | [l] => l
  | l :: ls => l ++ "\n" ++ joinLines ls

/-- The accumulation loop of `diff3_merge`: merged text, the three
aggregated conflict sides, and the `has_conflict` flag. -/
def collectMerge :
    List Diff3Hunk → String × List String × List String × List String × Bool
  | [] => ("", [], [], [], false)
  | h :: rest =>
    let acc := collectMerge rest
    match h with
    | Diff3Hunk.Stable lines => (concatNl lines ++ acc.1, acc.2)
    | Diff3Hunk.LeftChanged lines => (concatNl lines ++ acc.1, acc.2)
    | Diff3Hunk.RightChanged lines => (concatNl lines ++ acc.1, acc.2)
    | Diff3Hunk.Conflict b l r =>
      (acc.1, b ++ acc.2.1, l ++ acc.2.2.1, r ++ acc.2.2.2.1, true)

/-- Perform a full three-way merge (`diff3_merge`). -/
def diff3_merge (scenario : MergeScenario) : MergeResult :=
  let acc := collectMerge (diff3_hunks scenario)
  if acc.2.2.2.2 then
    MergeResult.Conflict (joinLines acc.2.1) (joinLines acc.2.2.1)
      (joinLines acc.2.2.2.1)
  else MergeResult.Resolved acc.1

/-! ### Helper denotations used by the theorems -/

/-- The lines a hunk contributes to the merged (non-conflict) output. -/
def hunkLines : Diff3Hunk → List String
  | Diff3Hunk.Stable lines => lines
  | Diff3Hunk.LeftChanged lines => lines
  | Diff3Hunk.RightChanged lines => lines
  | Diff3Hunk.Conflict _ _ _ => []

/-- Concatenated merged lines of a hunk list. -/
def mergedLines (hs : List Diff3Hunk) : List String :=
  (hs.map hunkLines).flatten

/-- Is a hunk a conflict? -/
def isConflictHunk : Diff3Hunk → Bool
  | Diff3Hunk.Conflict _ _ _ => true
  | _ => false

/-- Numeric variant tag of a hunk. -/
def tagNum : Diff3Hunk → Nat
  | Diff3Hunk.Stable _ => 0
  | Diff3Hunk.LeftChanged _ => 1
  | Diff3Hunk.RightChanged _ => 2
  | Diff3Hunk.Conflict _ _ _ => 3

/-- Payload projection: `0` stable, `1` left-changed, `2` right-changed,
`3`/`4`/`5` the base/left/right side of a conflict. -/
def proj (sel : Nat) : Diff3Hunk → List String
  | Diff3Hunk.Stable lines => if sel = 0 then lines else []
  | Diff3Hunk.LeftChanged lines => if sel = 1 then lines else []
  | Diff3Hunk.RightChanged lines => if sel = 2 then lines else []
  | Diff3Hunk.Conflict b l r =>
    if sel = 3 then b else if sel = 4 then l else if sel = 5 then r else []

/-- Concatenated `proj sel` payloads of a hunk list. -/
def projConcat (sel : Nat) (hs : List Diff3Hunk) : List String :=
  (hs.map (proj sel)).flatten

/-- Interpretation of one side's edit script over the base lines:
the lines that side produces (proof-side denotation). -/
def applyOps (bi : Nat) (rem : List String) (re : List EditOp) : List String :=
  let gr := get_insert_at re bi
  match rem with
  | [] => gr.1
  | base_line :: rest =>
    let ar := get_action_at gr.2 bi
    gr.1 ++ (match ar.1 with
              | Edit.Keep => [base_line]
              | Edit.Replace ls => ls
              | Edit.Delete => []) ++ applyOps (bi + 1) rest ar.2

/-- Direct interpretation of a change list: an equal token contributes
its `str::lines` form, an inserted token its `trim_end_matches('\n')`
form, a deleted token nothing. -/
def outOf : List Change → List String
  | [] => []
  | Change.Equal t :: rest => stripEnding t :: outOf rest
  | Change.Delete _ :: rest => outOf rest
  | Change.Insert t :: rest => trimAllNl t :: outOf rest

/-- The base-side tokens of a change list. -/
def baseToks : List Change → List String
  | [] => []
  | Change.Equal t :: rest => t :: baseToks rest
  | Change.Delete t :: rest => t :: baseToks rest
  | Change.Insert _ :: rest => baseToks rest

/-- The target-side tokens of a change list. -/
def targetToks : List Change → List String
  | [] => []
  | Change.Equal t :: rest => t :: targetToks rest
  | Change.Delete _ :: rest => targetToks rest
  | Change.Insert t :: rest => t :: targetToks rest

/-- A text with a final newline appended when it is nonempty and does
not already end in one. -/
def withNl (s : String) : String :=
  if s.data = [] ∨ s.data.getLast? = some '\n' then s else s ++ "\n"

/-- Concatenate a list of strings (used to state that the tokenizer
loses nothing). -/
def concatAll : List String → String
  | [] => ""
  | s :: rest => s ++ concatAll rest

/-! ### The conflict-marker parser of `main.rs` -/

/-- The parser's four states (`enum MarkerState`). -/
inductive MarkerState where
  | None
  | Left
  | Base
  | Right
deriving DecidableEq, Repr

/-- Model of Rust `str::starts_with` on string patterns. -/
def startsWithStr (s pat : String) : Bool :=
  pat.data.isPrefixOf s.data

/-- The line loop of `parse_conflict_markers`: `ml` is `marker_lines`,
`ll`/`bl`/`rl` the left/base/right line accumulators, `acc` the
conflicts collected so far. -/
def pcmGo : List String → MarkerState → List String → List String →
    List String → List String → List (String × String × String × String) →
    List (String × String × String × String)
  | [], _, _, _, _, _, acc => acc
  | line :: rest, MarkerState.None, ml, ll, bl, rl, acc =>
    if startsWithStr line "<<<<<<<" then
      pcmGo rest MarkerState.Left (ml ++ [line]) [] [] [] acc
    else pcmGo rest MarkerState.None ml ll bl rl acc
  | line :: rest, MarkerState.Left, ml, ll, bl, rl, acc =>
    if startsWithStr line "|||||||" then
      pcmGo rest MarkerState.Base (ml ++ [line]) ll bl rl acc
    else if startsWithStr line "=======" then
      pcmGo rest MarkerState.Right (ml ++ [line]) ll bl rl acc
    else pcmGo rest MarkerState.Left (ml ++ [line]) (ll ++ [line]) bl rl acc
  | line :: rest, MarkerState.Base, ml, ll, bl, rl, acc =>
    if startsWithStr line "=======" then
      pcmGo rest MarkerState.Right (ml ++ [line]) ll bl rl acc
    else pcmGo rest MarkerState.Base (ml ++ [line]) ll (bl ++ [line]) rl acc
  | line :: rest, MarkerState.Right, ml, ll, bl, rl, acc =>
    if startsWithStr line ">>>>>>>" then
      pcmGo rest MarkerState.None [] ll bl rl
        (acc ++ [(joinLines bl, joinLines ll, joinLines rl,
                  joinLines (ml ++ [line]))])
    else pcmGo rest MarkerState.Right (ml ++ [line]) ll bl (rl ++ [line]) acc

/-- Parse git conflict markers, returning
`(base, left, right, full_marker)` records (`parse_conflict_markers`). -/
def parse_conflict_markers (text : String) :
    List (String × String × String × String) :=
  pcmGo (rustLines text) MarkerState.None [] [] [] [] []

/-! ### Rust `str::replace` (used by `resolve_stdin`) -/

/-- One scan of `str::replace`, fuelled by the text length: replace each
leftmost non-overlapping occurrence of `m` by `r`. -/
def replaceF (m r : List Char) : Nat → List Char → List Char
  | 0, s => s
  | _ + 1, [] => []
  | fuel + 1, c :: cs =>
    if m.isPrefixOf (c :: cs) then r ++ replaceF m r fuel ((c :: cs).drop m.length)
    else c :: replaceF m r fuel cs

/-- All occurrences of a nonempty pattern replaced (`str::replace`; an
empty pattern never occurs at the call site, where the pattern is a full
marker block). -/
def replaceAllL (s m r : List Char) : List Char :=
  if m = [] then s else replaceF m r s.length s

/-- `str::replace` on `String`s. -/
def strReplace (s m r : String) : String :=
  String.mk (replaceAllL s.data m.data r.data)

/-! ### The CLI control flow of `main.rs` -/

/-- Modelled from the spec: the `FileResolution` record returned by the
resolver pipeline (the resolver's code is not in the source tree; only
the two fields `main` consumes are modelled). -/
structure FileResolution where
  merged_content : String
  all_resolved : Bool
deriving DecidableEq, Repr

/-- The positional (git merge driver) form of `main`, `check_mode`
off: the three read results enter as `Except`, the resolver pipeline as
an opaque function, the write of the left path as an `Except`-valued
call.  Returns the exit code and the content successfully written to
the left path, if any. -/
def mainPositional (readBase readLeft readRight : Except String String)
    (resolve_file : String → String → String → FileResolution)
    (writeLeft : String → Except String Unit) : Nat × Option String :=
  match readBase with
  | Except.error _ => (2, none)
  | Except.ok base =>
    match readLeft with
    | Except.error _ => (2, none)
    | Except.ok left =>
      match readRight with
      | Except.error _ => (2, none)
      | Except.ok right =>
        let result := resolve_file base left right
        if result.all_resolved then
          match writeLeft result.merged_content with
          | Except.error _ => (2, none)
          | Except.ok _ => (0, some result.merged_content)
        else
          match writeLeft result.merged_content with
          | Except.error _ => (2, none)
          | Except.ok _ => (1, some result.merged_content)

/-- The per-marker substitution loop of `resolve_stdin`: iterate the
parsed conflicts in reverse; a resolved block is substituted with
`str::replace` over the whole output. -/
def stdinLoop (resolve_conflict : String → String → String → Option String)
    (conflicts : List (String × String × String × String))
    (output : String) (all_resolved : Bool) : String × Bool :=
  conflicts.reverse.foldl
    (fun acc c =>
      match resolve_conflict c.1 c.2.1 c.2.2.1 with
      | some content => (strReplace acc.1 c.2.2.2 content, acc.2)
      | none => (acc.1, false))
    (output, all_resolved)

/-- `resolve_stdin`: stdin text in, `(stdout text, exit code)` out; the
resolver pipeline enters as an opaque function returning the optional
resolution content. -/
def resolve_stdin (resolve_conflict : String → String → String → Option String)
    (input : String) : String × Nat :=
  let conflicts := parse_conflict_markers input
  if conflicts = [] then (input ++ "\n", 0)
  else
    let res := stdinLoop resolve_conflict conflicts input true
    (res.1, if res.2 then 0 else 1)

/-! ## Lemmas about coalescing -/

theorem mergeSame_isSome {a b : Diff3Hunk} (h : sameTag b a = true) :
    (mergeSame a b).isSome := by
  cases a <;> cases b <;> simp_all [sameTag, mergeSame]

theorem mergeSame_tagNum {a b m : Diff3Hunk} (h : mergeSame a b = some m) :
    tagNum m = tagNum a := by
  cases a <;> cases b <;> simp [mergeSame] at h <;> subst h <;> rfl

theorem sameTag_iff_tagNum (a b : Diff3Hunk) :
    sameTag a b = true ↔ tagNum a = tagNum b := by
  cases a <;> cases b <;> simp [sameTag, tagNum]

theorem coStepChk_eq (acc : List Diff3Hunk) (h : Diff3Hunk) :
    coStepChk acc h = some (coStep acc h) := by
  unfold coStepChk coStep
  match acc with
  | [] => rfl
  | prev :: accRest =>
    by_cases hst : sameTag h prev
    · have := mergeSame_isSome hst
      match hm : mergeSame prev h with
      | some m => simp [hst, hm]
      | none => simp [hm] at this
    · simp [hst]

theorem coalesce_hunksChk_eq (hs : List Diff3Hunk) :
    coalesce_hunksChk hs = some (coalesce_hunks hs) := by
  unfold coalesce_hunksChk coalesce_hunks
  suffices hgen : ∀ (l : List Diff3Hunk) (acc : List Diff3Hunk),
      l.foldl (fun acc h => acc.bind (fun a => coStepChk a h)) (some acc)
        = some (l.foldl coStep acc) by
    rw [hgen hs []]
    rfl
  intro l
  induction l with
  | nil => intro acc; rfl
  | cons h rest ih =>
    intro acc
    rw [List.foldl_cons, List.foldl_cons]
    have hstep : ((some acc).bind fun a => coStepChk a h) = some (coStep acc h) := by
      simp [coStepChk_eq]
    rw [hstep, ih]

/-- `f`-payload concatenation over a hunk list. -/
theorem fConcat_append (f : Diff3Hunk → List String) (a b : List Diff3Hunk) :
    ((a ++ b).map f).flatten = (a.map f).flatten ++ (b.map f).flatten := by
  simp

theorem coStep_fConcat (f : Diff3Hunk → List String)
    (hf : ∀ a b m, mergeSame a b = some m → f m = f a ++ f b)
    (acc : List Diff3Hunk) (h : Diff3Hunk) :
    ((coStep acc h).reverse.map f).flatten
      = (acc.reverse.map f).flatten ++ f h := by
  unfold coStep
  match acc with
  | [] => simp
  | prev :: accRest =>
    by_cases hst : sameTag h prev
    · have hsome := mergeSame_isSome hst
      match hm : mergeSame prev h with
      | some m =>
        simp only [hst, hm, if_true]
        simp [hf _ _ _ hm]
      | none => simp [hm] at hsome
    · simp [hst]

theorem foldl_coStep_fConcat (f : Diff3Hunk → List String)
    (hf : ∀ a b m, mergeSame a b = some m → f m = f a ++ f b)
    (hs : List Diff3Hunk) :
    ∀ acc : List Diff3Hunk,
      ((hs.foldl coStep acc).reverse.map f).flatten
        = (acc.reverse.map f).flatten ++ (hs.map f).flatten := by
  induction hs with
  | nil => intro acc; simp
  | cons h rest ih =>
    intro acc
    simp only [List.foldl_cons, ih (coStep acc h),
      coStep_fConcat f hf acc h, List.map_cons, List.flatten_cons,
      List.append_assoc]

theorem coalesce_fConcat (f : Diff3Hunk → List String)
    (hf : ∀ a b m, mergeSame a b = some m → f m = f a ++ f b)
    (hs : List Diff3Hunk) :
    ((coalesce_hunks hs).map f).flatten = (hs.map f).flatten := by
  unfold coalesce_hunks
  simpa using foldl_coStep_fConcat f hf hs []

theorem proj_mergeSame (sel : Nat) :
    ∀ a b m, mergeSame a b = some m → proj sel m = proj sel a ++ proj sel b := by
  intro a b m hm
  cases a <;> cases b <;> simp [mergeSame] at hm <;> subst hm <;>
    simp only [proj] <;> split_ifs <;> simp

theorem hunkLines_mergeSame :
    ∀ a b m, mergeSame a b = some m → hunkLines m = hunkLines a ++ hunkLines b := by
  intro a b m hm
  cases a <;> cases b <;> simp [mergeSame] at hm <;> subst hm <;>
    simp [hunkLines]

theorem coalesce_projConcat (sel : Nat) (hs : List Diff3Hunk) :
    projConcat sel (coalesce_hunks hs) = projConcat sel hs :=
  coalesce_fConcat (proj sel) (proj_mergeSame sel) hs

theorem coalesce_mergedLines (hs : List Diff3Hunk) :
    mergedLines (coalesce_hunks hs) = mergedLines hs :=
  coalesce_fConcat hunkLines hunkLines_mergeSame hs

theorem coStep_chain (acc : List Diff3Hunk) (h : Diff3Hunk)
    (hacc : List.Chain' (fun a b => tagNum a ≠ tagNum b) acc) :
    List.Chain' (fun a b => tagNum a ≠ tagNum b) (coStep acc h) := by
  unfold coStep
  match acc with
  | [] => simp
  | prev :: accRest =>
    by_cases hst : sameTag h prev
    · have hsome := mergeSame_isSome hst
      match hm : mergeSame prev h with
      | some m =>
        simp only [hst, if_true, hm]
        rw [List.chain'_cons'] at hacc ⊢
        refine ⟨?_, hacc.2⟩
        intro y hy
        rw [mergeSame_tagNum hm]
        exact hacc.1 y hy
      | none => simp [hm] at hsome
    · simp only [hst]
      rw [if_neg (by simp [hst])]
      rw [List.chain'_cons']
      refine ⟨?_, hacc⟩
      intro y hy
      simp only [List.head?_cons, Option.mem_def, Option.some.injEq] at hy
      subst hy
      intro hEq
      exact hst (by rw [sameTag_iff_tagNum]; exact hEq)

theorem coalesce_chain (hs : List Diff3Hunk) :
    List.Chain' (fun a b => tagNum a ≠ tagNum b) (coalesce_hunks hs) := by
  unfold coalesce_hunks
  have hacc : ∀ acc : List Diff3Hunk,
      List.Chain' (fun a b => tagNum a ≠ tagNum b) acc →
      List.Chain' (fun a b => tagNum a ≠ tagNum b) (hs.foldl coStep acc) := by
    induction hs with
    | nil => intro acc h; exact h
    | cons h rest ih =>
      intro acc hchain
      exact ih (coStep acc h) (coStep_chain acc h hchain)
  have := hacc [] (by simp)
  rw [List.chain'_reverse]
  exact this.imp (fun a b hab => fun hEq => hab hEq.symm)

/-! ## String bridges -/

theorem sdata_append (a b : String) : (a ++ b).data = a.data ++ b.data := by
  cases a; cases b; rfl

theorem sext {a b : String} (h : a.data = b.data) : a = b := by
  cases a; cases b; exact congrArg String.mk h

theorem sappend_assoc (a b c : String) : a ++ b ++ c = a ++ (b ++ c) := by
  apply sext
  simp [sdata_append]

theorem concatNl_data (ls : List String) :
    (concatNl ls).data = (ls.map (fun l => l.data ++ ['\n'])).flatten := by
  induction ls with
  | nil => rfl
  | cons x xs ih => simp [concatNl, sdata_append, ih]

theorem concatNl_append (a b : List String) :
    concatNl (a ++ b) = concatNl a ++ concatNl b := by
  apply sext
  simp [concatNl_data, sdata_append]

/-! ## Non-conflict hunk lists and `diff3_merge` -/

theorem mergeSame_noConf {a b m : Diff3Hunk} (hm : mergeSame a b = some m)
    (ha : isConflictHunk a = false) : isConflictHunk m = false := by
  cases a <;> cases b <;> simp [mergeSame] at hm <;> subst hm <;>
    simp_all [isConflictHunk]

theorem coStep_nil (h : Diff3Hunk) : coStep [] h = [h] := rfl

theorem coStep_eq_merge {prev h m : Diff3Hunk} (rest : List Diff3Hunk)
    (hst : sameTag h prev = true) (hm : mergeSame prev h = some m) :
    coStep (prev :: rest) h = m :: rest := by
  unfold coStep
  simp [hst, hm]

theorem coStep_eq_push {prev h : Diff3Hunk} (rest : List Diff3Hunk)
    (hst : sameTag h prev = false) :
    coStep (prev :: rest) h = h :: prev :: rest := by
  unfold coStep
  simp [hst]

theorem coStep_noConf (acc : List Diff3Hunk) (h : Diff3Hunk)
    (hacc : ∀ x ∈ acc, isConflictHunk x = false)
    (hh : isConflictHunk h = false) :
    ∀ x ∈ coStep acc h, isConflictHunk x = false := by
  match acc with
  | [] =>
    rw [coStep_nil]
    simpa
  | prev :: accRest =>
    by_cases hst : sameTag h prev
    · obtain ⟨m, hm⟩ := Option.isSome_iff_exists.mp (mergeSame_isSome hst)
      rw [coStep_eq_merge accRest hst hm]
      intro x hx
      rcases List.mem_cons.mp hx with rfl | hx
      · exact mergeSame_noConf hm (hacc prev (by simp))
      · exact hacc x (List.mem_cons_of_mem _ hx)
    · rw [coStep_eq_push accRest (by simpa using hst)]
      intro x hx
      rcases List.mem_cons.mp hx with rfl | hx
      · exact hh
      · exact hacc x hx

theorem coalesce_noConf (hs : List Diff3Hunk)
    (h : ∀ x ∈ hs, isConflictHunk x = false) :
    ∀ x ∈ coalesce_hunks hs, isConflictHunk x = false := by
  unfold coalesce_hunks
  have hacc : ∀ (l : List Diff3Hunk) (acc : List Diff3Hunk),
      (∀ x ∈ acc, isConflictHunk x = false) →
      (∀ x ∈ l, isConflictHunk x = false) →
      ∀ x ∈ l.foldl coStep acc, isConflictHunk x = false := by
    intro l
    induction l with
    | nil => intro acc ha _; simpa using ha
    | cons h rest ih =>
      intro acc ha hl
      exact ih (coStep acc h)
        (coStep_noConf acc h ha (hl h (by simp)))
        (fun x hx => hl x (List.mem_cons_of_mem _ hx))
  intro x hx
  exact hacc hs [] (by simp) h x (List.mem_reverse.mp hx)

theorem collectMerge_noConf (hs : List Diff3Hunk)
    (h : ∀ x ∈ hs, isConflictHunk x = false) :
    collectMerge hs = (concatNl (mergedLines hs), [], [], [], false) := by
  induction hs with
  | nil => simp [collectMerge, mergedLines, concatNl]
  | cons x rest ih =>
    have hx : isConflictHunk x = false := h x (by simp)
    have hrest := ih (fun y hy => h y (List.mem_cons_of_mem _ hy))
    cases x with
    | Stable lines =>
      simp [collectMerge, hrest, mergedLines, hunkLines, concatNl_append]
    | LeftChanged lines =>
      simp [collectMerge, hrest, mergedLines, hunkLines, concatNl_append]
    | RightChanged lines =>
      simp [collectMerge, hrest, mergedLines, hunkLines, concatNl_append]
    | Conflict b l r => simp [isConflictHunk] at hx

theorem diff3_merge_noConf (s : MergeScenario)
    (h : ∀ x ∈ diff3_hunks s, isConflictHunk x = false) :
    diff3_merge s
      = MergeResult.Resolved (concatNl (mergedLines (diff3_hunks s))) := by
  unfold diff3_merge
  rw [collectMerge_noConf _ h]
  simp

/-! ## The walk only emits stable lines drawn from the base -/

theorem insertHunks_proj0 (a b : List String) :
    ((insertHunks a b).map (proj 0)).flatten = [] := by
  unfold insertHunks
  split_ifs <;> simp [proj]

theorem classify_proj0 (bl : String) (la ra : Edit) :
    ((classify bl la ra).map (proj 0)).flatten.Sublist [bl] := by
  cases la <;> cases ra <;> simp [classify, proj]
  split_ifs <;> simp [proj]

theorem walk_stable_sublist :
    ∀ (rem : List String) (bi : Nat) (le re : List EditOp),
      (((walkAux bi rem le re).map (proj 0)).flatten).Sublist rem := by
  intro rem
  induction rem with
  | nil =>
    intro bi le re
    rw [walkAux]
    simp [insertHunks_proj0]
  | cons bl rest ih =>
    intro bi le re
    rw [walkAux]
    simp only [List.map_append, List.flatten_append, insertHunks_proj0,
      List.nil_append]
    have h1 := classify_proj0 bl (get_action_at (get_insert_at le bi).2 bi).1
      (get_action_at (get_insert_at re bi).2 bi).1
    have h2 := ih (bi + 1) (get_action_at (get_insert_at le bi).2 bi).2
      (get_action_at (get_insert_at re bi).2 bi).2
    exact List.Sublist.append h1 h2

theorem mem_proj_sublist (sel : Nat) (h : Diff3Hunk) (hs : List Diff3Hunk)
    (hmem : h ∈ hs) : (proj sel h).Sublist (projConcat sel hs) := by
  obtain ⟨s, t, rfl⟩ := List.append_of_mem hmem
  unfold projConcat
  simp only [List.map_append, List.map_cons, List.flatten_append,
    List.flatten_cons]
  have h1 : (proj sel h).Sublist
      (proj sel h ++ (t.map (proj sel)).flatten) :=
    List.sublist_append_left _ _
  have h2 : (proj sel h ++ (t.map (proj sel)).flatten).Sublist
      ((s.map (proj sel)).flatten
        ++ (proj sel h ++ (t.map (proj sel)).flatten)) :=
    List.sublist_append_right _ _
  exact h1.trans h2

/-! ## Claims about hunk-list structure -/

/-- C3: `diff3_hunks` is total on every input triple — all embedded
functions are total Lean functions — and the instrumented pipeline, in
which the `unreachable!()` branch of `coalesce_hunks` yields `none`
and base lines are only read below `base_lines.len()`, always returns
`some` of the hunk list `diff3_hunks` produces. -/
theorem c3_total (b l r : String) :
    diff3_hunksChk ⟨b, l, r⟩ = some (diff3_hunks ⟨b, l, r⟩) :=
  coalesce_hunksChk_eq (preHunks ⟨b, l, r⟩)

/-- C5 (amended): every `Stable` hunk produced by `diff3_hunks` has a
line sequence that is a subsequence — not necessarily contiguous — of
the base's lines; contiguity fails when both sides delete an
intervening base run. -/
theorem c5_stable_subsequence (s : MergeScenario) (h : Diff3Hunk)
    (ls : List String) (hmem : h ∈ diff3_hunks s)
    (hst : h = Diff3Hunk.Stable ls) :
    ls.Sublist (rustLines s.base) := by
  have h1 : (proj 0 h).Sublist (projConcat 0 (diff3_hunks s)) :=
    mem_proj_sublist 0 h _ hmem
  rw [hst] at h1
  simp only [proj, if_pos rfl] at h1
  have h2 : projConcat 0 (diff3_hunks s) = projConcat 0 (preHunks s) :=
    coalesce_projConcat 0 (preHunks s)
  have h3 : (projConcat 0 (preHunks s)).Sublist (rustLines s.base) :=
    walk_stable_sublist (rustLines s.base) 0 _ _
  rw [h2] at h1
  exact h1.trans h3

/-- C5 counterexample: with base `a/x/b` and both sides deleting `x`,
the single coalesced `Stable` hunk is `["a", "b"]`, which is not a
contiguous subsequence (infix) of the base's lines `["a", "x", "b"]`. -/
theorem c5_counterexample :
    diff3_hunks ⟨"a\nx\nb", "a\nb", "a\nb"⟩ = [Diff3Hunk.Stable ["a", "b"]]
    ∧ ¬ (["a", "b"] <:+: rustLines "a\nx\nb") := by
  constructor
  · decide
  · decide

/-- C5 witness: the amended theorem applied at a concrete input. -/
theorem c5_witness :
    ["a"].Sublist (rustLines "a\n") :=
  c5_stable_subsequence ⟨"a\n", "a\n", "a\n"⟩ (Diff3Hunk.Stable ["a"]) ["a"]
    (by decide) rfl

/-- C6: the hunk list returned by `diff3_hunks` never has two adjacent
hunks of the same variant tag, and coalescing concatenates, in order,
the payloads of merged hunks — each of the stable/left/right payloads
and each of the three sides of `Conflict` hunks independently
(`projConcat 0`-`5`), as well as the merged output lines. -/
theorem c6_coalescing :
    (∀ s : MergeScenario,
      List.Chain' (fun a b => tagNum a ≠ tagNum b) (diff3_hunks s))
    ∧ (∀ (sel : Nat) (hs : List Diff3Hunk),
        projConcat sel (coalesce_hunks hs) = projConcat sel hs)
    ∧ (∀ hs : List Diff3Hunk,
        mergedLines (coalesce_hunks hs) = mergedLines hs) :=
  ⟨fun s => coalesce_chain (preHunks s),
   fun sel hs => coalesce_projConcat sel hs,
   fun hs => coalesce_mergedLines hs⟩

/-- C7: when both sides insert at the same base position, byte-identical
insertions collapse to a single `LeftChanged` hunk and differing
insertions yield a `Conflict` hunk with empty base, the left insertion
on the left and the right insertion on the right; illustrated
end-to-end on both-insert-same and both-insert-different triples. -/
theorem c7_same_position_inserts :
    (∀ left_insert right_insert : List String,
      left_insert ≠ [] → right_insert ≠ [] →
      insertHunks left_insert right_insert
        = if left_insert = right_insert
          then [Diff3Hunk.LeftChanged left_insert]
          else [Diff3Hunk.Conflict [] left_insert right_insert])
    ∧ diff3_hunks ⟨"a\nc", "a\nx\nc", "a\nx\nc"⟩
        = [Diff3Hunk.Stable ["a"], Diff3Hunk.LeftChanged ["x"],
           Diff3Hunk.Stable ["c"]]
    ∧ diff3_hunks ⟨"a\nc", "a\nx\nc", "a\ny\nc"⟩
        = [Diff3Hunk.Stable ["a"], Diff3Hunk.Conflict [] ["x"] ["y"],
           Diff3Hunk.Stable ["c"]] := by
  refine ⟨?_, by decide, by decide⟩
  intro li ri hli hri
  unfold insertHunks
  rw [if_pos (Or.inl hli), if_pos ⟨hli, hri⟩]

/-- C7 witness: the insertion-combination rule applied at concrete
differing insertions. -/
theorem c7_witness :
    insertHunks ["x"] ["y"] = [Diff3Hunk.Conflict [] ["x"] ["y"]] := by
  have h := c7_same_position_inserts.1 ["x"] ["y"] (by decide) (by decide)
  rw [if_neg (by decide)] at h
  exact h

/-! ## The conflict-marker parser -/

theorem pcmGo_no_terminator :
    ∀ (lines : List String) (st : MarkerState) (ml ll bl rl : List String)
      (acc : List (String × String × String × String)),
      (∀ l ∈ lines, startsWithStr l ">>>>>>>" = false) →
      pcmGo lines st ml ll bl rl acc = acc := by
  intro lines
  induction lines with
  | nil => intro st ml ll bl rl acc _; cases st <;> rfl
  | cons l rest ih =>
    intro st ml ll bl rl acc hno
    have hl : startsWithStr l ">>>>>>>" = false := hno l (by simp)
    have hrest : ∀ x ∈ rest, startsWithStr x ">>>>>>>" = false :=
      fun x hx => hno x (List.mem_cons_of_mem _ hx)
    cases st with
    | None =>
      rw [pcmGo]
      split_ifs <;> exact ih _ _ _ _ _ _ hrest
    | Left =>
      rw [pcmGo]
      split_ifs <;> exact ih _ _ _ _ _ _ hrest
    | Base =>
      rw [pcmGo]
      split_ifs <;> exact ih _ _ _ _ _ _ hrest
    | Right =>
      rw [pcmGo]
      rw [if_neg (by simp [hl])]
      exact ih _ _ _ _ _ _ hrest

/-- C8: the marker parser returns one record per complete block in
order of appearance; a block without a `|||||||` section has an empty
base; marker-like lines in unexpected positions (an inner `<<<<<<<`
inside an open block) are ordinary content; a block that reaches end of
input without its `>>>>>>>` terminator is silently discarded (in
particular, a text with no `>>>>>>>` line yields no record); the parser
is a total function. -/
theorem c8_marker_codec :
    (∀ text : String,
      (∀ l ∈ rustLines text, startsWithStr l ">>>>>>>" = false) →
      parse_conflict_markers text = [])
    ∧ parse_conflict_markers "<<<<<<< L\na\n=======\nb\n>>>>>>> R"
        = [("", "a", "b", "<<<<<<< L\na\n=======\nb\n>>>>>>> R")]
    ∧ parse_conflict_markers
        "p\n<<<<<<< A\n<<<<<<< inner\n||||||| o\nb1\n=======\nr1\n>>>>>>> B\nq\n<<<<<<< C\nl2\n=======\nr2\n>>>>>>> D"
        = [("b1", "<<<<<<< inner", "r1",
            "<<<<<<< A\n<<<<<<< inner\n||||||| o\nb1\n=======\nr1\n>>>>>>> B"),
           ("", "l2", "r2", "<<<<<<< C\nl2\n=======\nr2\n>>>>>>> D")]
    ∧ parse_conflict_markers "<<<<<<< A\nx\n=======\ny\n>>>>>>> B\n<<<<<<< unterm\nz"
        = [("", "x", "y", "<<<<<<< A\nx\n=======\ny\n>>>>>>> B")] := by
  refine ⟨?_, by decide, by decide, by decide⟩
  intro text hno
  exact pcmGo_no_terminator _ _ _ _ _ _ _ hno

/-- C8 witness: a marker-free text parses to no records. -/
theorem c8_witness : parse_conflict_markers "plain\ntext" = [] :=
  c8_marker_codec.1 "plain\ntext" (by decide)

/-! ## The positional CLI form -/

/-- C9: in the positional form, a failed read of any of the three input
files exits with code 2 and writes nothing; after three successful
reads, a failed write of the merged content exits 2, and a successful
write stores the merged content at the left path and exits 0 when all
conflicts were resolved and 1 otherwise (the same partial content with
markers having been written).  The resolver pipeline enters as an
opaque function; its code is outside the source tree. -/
theorem c9_positional_cli (rb rl rr : Except String String)
    (rf : String → String → String → FileResolution)
    (w : String → Except String Unit) :
    (((∃ e, rb = Except.error e) ∨ (∃ e, rl = Except.error e)
        ∨ (∃ e, rr = Except.error e)) →
      mainPositional rb rl rr rf w = (2, none))
    ∧ (∀ b l r, rb = Except.ok b → rl = Except.ok l → rr = Except.ok r →
        ((∃ e, w (rf b l r).merged_content = Except.error e) →
            mainPositional rb rl rr rf w = (2, none))
        ∧ (w (rf b l r).merged_content = Except.ok () →
            mainPositional rb rl rr rf w
              = (if (rf b l r).all_resolved then 0 else 1,
                 some (rf b l r).merged_content))) := by
  constructor
  · intro herr
    rcases rb with e | b
    · rfl
    · rcases rl with e | l
      · rfl
      · rcases rr with e | r
        · rfl
        · rcases herr with ⟨e, he⟩ | ⟨e, he⟩ | ⟨e, he⟩ <;> simp_all
  · intro b l r hb hl hr
    subst hb; subst hl; subst hr
    constructor
    · rintro ⟨e, hw⟩
      by_cases hres : (rf b l r).all_resolved <;>
        simp [mainPositional, hw, hres]
    · intro hw
      by_cases hres : (rf b l r).all_resolved <;>
        simp [mainPositional, hw, hres]

/-- C9 witness: the three behaviours applied at concrete runs. -/
theorem c9_witness :
    mainPositional (Except.ok "b") (Except.ok "l") (Except.ok "r")
      (fun _ _ _ => ⟨"m", true⟩) (fun _ => Except.ok ())
      = (0, some "m")
    ∧ mainPositional (Except.error "io") (Except.ok "l") (Except.ok "r")
      (fun _ _ _ => ⟨"m", true⟩) (fun _ => Except.ok ())
      = (2, none) := by
  constructor
  · have h := ((c9_positional_cli (Except.ok "b") (Except.ok "l")
      (Except.ok "r") (fun _ _ _ => ⟨"m", true⟩)
      (fun _ => Except.ok ())).2 "b" "l" "r" rfl rfl rfl).2 rfl
    simpa using h
  · exact (c9_positional_cli (Except.error "io") (Except.ok "l")
      (Except.ok "r") (fun _ _ _ => ⟨"m", true⟩)
      (fun _ => Except.ok ())).1 (Or.inl ⟨"io", rfl⟩)

/-! ## `str::replace` and the stdin substitution -/

theorem replaceF_fuel_irrel (m r : List Char) (hm : m ≠ []) :
    ∀ (f1 : Nat) (s : List Char) (f2 : Nat),
      s.length ≤ f1 → s.length ≤ f2 →
      replaceF m r f1 s = replaceF m r f2 s := by
  intro f1
  induction f1 with
  | zero =>
    intro s f2 h1 _
    have hs : s = [] := List.eq_nil_of_length_eq_zero (Nat.le_zero.mp h1)
    subst hs
    cases f2 <;> rfl
  | succ f1 ih =>
    intro s f2 h1 h2
    match s with
    | [] => cases f2 <;> rfl
    | c :: cs =>
      have hmlen : 1 ≤ m.length := List.length_pos.mpr hm
      match f2 with
      | 0 => simp at h2
      | f2 + 1 =>
        rw [replaceF, replaceF]
        by_cases hp : m.isPrefixOf (c :: cs)
        · rw [if_pos hp, if_pos hp]
          have hd : ((c :: cs).drop m.length).length ≤ f1 := by
            simp only [List.length_drop, List.length_cons]
            simp only [List.length_cons] at h1
            omega
          have hd2 : ((c :: cs).drop m.length).length ≤ f2 := by
            simp only [List.length_drop, List.length_cons]
            simp only [List.length_cons] at h2
            omega
          rw [ih _ _ hd hd2]
        · rw [if_neg hp, if_neg hp]
          have hc : cs.length ≤ f1 := by
            simp only [List.length_cons] at h1; omega
          have hc2 : cs.length ≤ f2 := by
            simp only [List.length_cons] at h2; omega
          rw [ih _ _ hc hc2]

theorem infix_of_cons {α : Type} {m l : List α} {a : α}
    (h : m <:+: l) : m <:+: a :: l := by
  obtain ⟨u, v, huv⟩ := h
  exact ⟨a :: u, v, by rw [← huv]; rfl⟩

theorem replaceF_not_infix (m r : List Char) :
    ∀ (fuel : Nat) (s : List Char), s.length ≤ fuel →
      ¬ m <:+: s → replaceF m r fuel s = s := by
  intro fuel
  induction fuel with
  | zero => intro s _ _; rfl
  | succ fuel ih =>
    intro s hlen hninf
    match s with
    | [] => rfl
    | c :: cs =>
      rw [replaceF]
      have hp : m.isPrefixOf (c :: cs) = false := by
        by_contra hcon
        have : m.isPrefixOf (c :: cs) = true := by
          revert hcon
          cases m.isPrefixOf (c :: cs) <;> simp
        have hpre : m <+: c :: cs := List.isPrefixOf_iff_prefix.mp this
        exact hninf hpre.isInfix
      rw [if_neg (by simp [hp])]
      have hcs : ¬ m <:+: cs := fun hinf => hninf (infix_of_cons hinf)
      have hlen2 : cs.length ≤ fuel := by
        simp only [List.length_cons] at hlen; omega
      rw [ih cs hlen2 hcs]

theorem isPrefixOf_self_append (m s : List Char) :
    m.isPrefixOf (m ++ s) = true := by
  induction m with
  | nil => cases s <;> rfl
  | cons c cs ih => simp [List.isPrefixOf, ih]

theorem replaceAllL_not_infix (m r s : List Char) (hm : m ≠ [])
    (h : ¬ m <:+: s) : replaceAllL s m r = s := by
  unfold replaceAllL
  rw [if_neg hm]
  exact replaceF_not_infix m r s.length s (Nat.le_refl _) h

theorem replaceF_cons (m r : List Char) (fuel : Nat) (c : Char)
    (cs : List Char) :
    replaceF m r (fuel + 1) (c :: cs)
      = if m.isPrefixOf (c :: cs)
        then r ++ replaceF m r fuel ((c :: cs).drop m.length)
        else c :: replaceF m r fuel cs := rfl

theorem replaceAllL_head (m r s : List Char) (hm : m ≠ []) :
    replaceAllL (m ++ s) m r = r ++ replaceAllL s m r := by
  unfold replaceAllL
  rw [if_neg hm, if_neg hm]
  match m, hm with
  | c :: m', _ =>
    have hcons : (c :: m') ++ s = c :: (m' ++ s) := rfl
    have hlen : ((c :: m') ++ s).length = (m' ++ s).length + 1 := by simp
    rw [hlen, hcons, replaceF_cons]
    rw [if_pos (by rw [← hcons]; simp [isPrefixOf_self_append (c :: m') s])]
    have hdrop : (c :: (m' ++ s)).drop (c :: m').length = s := by
      rw [← hcons]
      exact List.drop_left _ _
    rw [hdrop]
    congr 1
    exact replaceF_fuel_irrel (c :: m') r (by simp) (m' ++ s).length s
      s.length (by simp) (Nat.le_refl _)

/-- C10: when a conflict region is resolved in `--stdin` mode, the
substitution is a textual `str::replace` of the block's exact marker
text over the whole output: a text with no occurrence of the (nonempty)
marker is left unchanged, an occurrence is replaced and scanning
continues after it — so every byte-identical occurrence is replaced by
the same resolution, text outside unchanged; end-to-end, a file with
two byte-identical conflict blocks has both replaced by the one
resolution. -/
theorem c10_stdin_replace :
    (∀ m r s : List Char, m ≠ [] → ¬ m <:+: s → replaceAllL s m r = s)
    ∧ (∀ m r s : List Char, m ≠ [] →
        replaceAllL (m ++ s) m r = r ++ replaceAllL s m r)
    ∧ resolve_stdin
        (fun b l r => if b = "" ∧ l = "x" ∧ r = "y" then some "R" else none)
        "p\n<<<<<<< A\nx\n=======\ny\n>>>>>>> B\nq\n<<<<<<< A\nx\n=======\ny\n>>>>>>> B\nz"
        = ("p\nR\nq\nR\nz", 0) := by
  refine ⟨?_, ?_, by decide⟩
  · intro m r s hm h
    exact replaceAllL_not_infix m r s hm h
  · intro m r s hm
    exact replaceAllL_head m r s hm

/-- C10 witness: the two replacement laws applied at concrete inputs. -/
theorem c10_witness :
    replaceAllL ['a'] ['b'] ['c'] = ['a']
    ∧ replaceAllL (['b'] ++ ['a']) ['b'] ['c'] = ['c'] ++ replaceAllL ['a'] ['b'] ['c'] :=
  ⟨c10_stdin_replace.1 ['b'] ['c'] ['a'] (by decide) (by decide),
   c10_stdin_replace.2.1 ['b'] ['c'] ['a'] (by decide)⟩

/-! ## Step equations for the walk -/

theorem gia_nil (bi : Nat) : get_insert_at [] bi = ([], []) := rfl

theorem gia_kept (i bi : Nat) (rest : List EditOp) :
    get_insert_at (EditOp.Kept i :: rest) bi = ([], EditOp.Kept i :: rest) := rfl

theorem gia_deleted (i bi : Nat) (rest : List EditOp) :
    get_insert_at (EditOp.Deleted i :: rest) bi
      = ([], EditOp.Deleted i :: rest) := rfl

theorem gia_replaced (i bi : Nat) (ls : List String) (rest : List EditOp) :
    get_insert_at (EditOp.Replaced i ls :: rest) bi
      = ([], EditOp.Replaced i ls :: rest) := rfl

theorem gia_ins_eq (bi : Nat) (ls : List String) (rest : List EditOp) :
    get_insert_at (EditOp.Insert bi ls :: rest) bi
      = (ls ++ (get_insert_at rest bi).1, (get_insert_at rest bi).2) := by
  rw [get_insert_at, if_pos rfl]

theorem gia_ins_ne {i bi : Nat} (h : i ≠ bi) (ls : List String)
    (rest : List EditOp) :
    get_insert_at (EditOp.Insert i ls :: rest) bi
      = ([], EditOp.Insert i ls :: rest) := by
  rw [get_insert_at, if_neg h]

theorem gaa_nil (bi : Nat) : get_action_at [] bi = (Edit.Keep, []) := rfl

theorem gaa_kept (bi : Nat) (rest : List EditOp) :
    get_action_at (EditOp.Kept bi :: rest) bi = (Edit.Keep, rest) := by
  rw [get_action_at, if_pos rfl]

theorem gaa_deleted (bi : Nat) (rest : List EditOp) :
    get_action_at (EditOp.Deleted bi :: rest) bi = (Edit.Delete, rest) := by
  rw [get_action_at, if_pos rfl]

theorem gaa_replaced (bi : Nat) (ls : List String) (rest : List EditOp) :
    get_action_at (EditOp.Replaced bi ls :: rest) bi
      = (Edit.Replace ls, rest) := by
  rw [get_action_at, if_pos rfl]

theorem applyOps_nil (bi : Nat) (re : List EditOp) :
    applyOps bi [] re = (get_insert_at re bi).1 := rfl

theorem applyOps_cons (bi : Nat) (bl : String) (rest : List String)
    (re : List EditOp) :
    applyOps bi (bl :: rest) re
      = (get_insert_at re bi).1
        ++ (match (get_action_at (get_insert_at re bi).2 bi).1 with
            | Edit.Keep => [bl]
            | Edit.Replace ls => ls
            | Edit.Delete => [])
        ++ applyOps (bi + 1) rest (get_action_at (get_insert_at re bi).2 bi).2 := rfl

theorem walkAux_nil (bi : Nat) (le re : List EditOp) :
    walkAux bi [] le re
      = insertHunks (get_insert_at le bi).1 (get_insert_at re bi).1 := rfl

theorem walkAux_cons (bi : Nat) (bl : String) (rest : List String)
    (le re : List EditOp) :
    walkAux bi (bl :: rest) le re
      = insertHunks (get_insert_at le bi).1 (get_insert_at re bi).1
        ++ classify bl (get_action_at (get_insert_at le bi).2 bi).1
            (get_action_at (get_insert_at re bi).2 bi).1
        ++ walkAux (bi + 1) rest (get_action_at (get_insert_at le bi).2 bi).2
            (get_action_at (get_insert_at re bi).2 bi).2 := rfl

theorem insertHunks_left_nil (ri : List String) :
    insertHunks [] ri
      = if ri = [] then [] else [Diff3Hunk.RightChanged ri] := by
  by_cases h : ri = [] <;> simp [insertHunks, h]

theorem insertHunks_right_nil (li : List String) :
    insertHunks li []
      = if li = [] then [] else [Diff3Hunk.LeftChanged li] := by
  by_cases h : li = [] <;> simp [insertHunks, h]

theorem insertHunks_self (li : List String) :
    insertHunks li li
      = if li = [] then [] else [Diff3Hunk.LeftChanged li] := by
  by_cases h : li = [] <;> simp [insertHunks, h]

theorem mergedLines_append (a b : List Diff3Hunk) :
    mergedLines (a ++ b) = mergedLines a ++ mergedLines b := by
  simp [mergedLines]

/-! ## Tokenizer lemmas -/

theorem si_flatten (cs : List Char) : (splitInclusiveL cs).flatten = cs := by
  induction cs with
  | nil => rfl
  | cons c cs ih =>
    rw [splitInclusiveL]
    by_cases hc : c = '\n'
    · simp [hc, ih]
    · rw [if_neg hc]
      match h : splitInclusiveL cs with
      | [] =>
        rw [h] at ih
        simp at ih
        simp [← ih]
      | l :: ls =>
        rw [h] at ih
        simp only [List.flatten_cons] at ih ⊢
        simp [ih]

theorem si_ne_nil (cs : List Char) : ∀ t ∈ splitInclusiveL cs, t ≠ [] := by
  induction cs with
  | nil => intro t ht; simp [splitInclusiveL] at ht
  | cons c cs ih =>
    intro t ht
    rw [splitInclusiveL] at ht
    by_cases hc : c = '\n'
    · rw [if_pos hc] at ht
      rcases List.mem_cons.mp ht with rfl | ht
      · simp
      · exact ih t ht
    · rw [if_neg hc] at ht
      match h : splitInclusiveL cs with
      | [] =>
        rw [h] at ht
        simp at ht
        simp [ht]
      | l :: ls =>
        rw [h] at ht
        rcases List.mem_cons.mp ht with rfl | ht
        · simp
        · exact ih t (h ▸ List.mem_cons_of_mem _ ht)

theorem si_wf (cs : List Char) :
    ∀ t ∈ splitInclusiveL cs, '\n' ∉ t.dropLast := by
  induction cs with
  | nil => intro t ht; simp [splitInclusiveL] at ht
  | cons c cs ih =>
    intro t ht
    rw [splitInclusiveL] at ht
    by_cases hc : c = '\n'
    · rw [if_pos hc] at ht
      rcases List.mem_cons.mp ht with rfl | ht
      · simp
      · exact ih t ht
    · rw [if_neg hc] at ht
      match h : splitInclusiveL cs with
      | [] =>
        rw [h] at ht
        simp at ht
        simp [ht]
      | l :: ls =>
        rw [h] at ht
        rcases List.mem_cons.mp ht with rfl | ht
        · have hl : l ≠ [] := si_ne_nil cs l (h ▸ List.mem_cons_self _ _)
          match l, hl with
          | x :: l', _ =>
            rw [List.dropLast_cons₂]
            intro hmem
            rcases List.mem_cons.mp hmem with heq | hmem
            · exact hc heq.symm
            · exact ih (x :: l') (h ▸ List.mem_cons_self _ _) hmem
        · exact ih t (h ▸ List.mem_cons_of_mem _ ht)

theorem trimAll_cons {c : Char} (hc : c ≠ '\n') (l : List Char) :
    trimAllNlL (c :: l) = c :: trimAllNlL l := by
  rw [trimAllNlL]
  match h : trimAllNlL l with
  | [] => simp [hc]
  | x :: xs => rfl

theorem strip_eq_trim :
    ∀ t : List Char, '\r' ∉ t → '\n' ∉ t.dropLast →
      stripEndingL t = trimAllNlL t := by
  intro t
  induction t with
  | nil => intro _ _; rfl
  | cons c cs ih =>
    intro hr hn
    match cs, ih, hr, hn with
    | [], _, _, _ => rfl
    | [d], _, hr, hn =>
      have hcr : c ≠ '\r' := fun h => hr (by simp [h])
      have hcn : c ≠ '\n' := by
        intro h
        exact hn (by simp [h, List.dropLast])
      by_cases hd : d = '\n' <;>
        simp [stripEndingL, trimAllNlL, hd, hcr, hcn]
    | d :: e :: rest, ih, hr, hn =>
      have hcn : c ≠ '\n' := by
        intro h
        apply hn
        rw [List.dropLast_cons₂, h]
        exact List.mem_cons_self _ _
      rw [stripEndingL, trimAll_cons hcn]
      congr 1
      apply ih
      · intro hmem
        exact hr (List.mem_cons_of_mem _ hmem)
      · intro hmem
        apply hn
        rw [List.dropLast_cons₂]
        exact List.mem_cons_of_mem _ hmem

theorem recon_tokens (cs : List Char) :
    ((splitInclusiveL cs).map (fun t => trimAllNlL t ++ ['\n'])).flatten
      = cs ++ (if cs = [] ∨ cs.getLast? = some '\n' then [] else ['\n']) := by
  induction cs with
  | nil => simp [splitInclusiveL]
  | cons c cs ih =>
    rw [splitInclusiveL]
    by_cases hc : c = '\n'
    · subst hc
      rw [if_pos rfl]
      simp only [List.map_cons, List.flatten_cons, ih]
      match cs with
      | [] => rfl
      | x :: xs =>
        rw [List.getLast?_cons_cons]
        simp [trimAllNlL]
    · rw [if_neg hc]
      match h : splitInclusiveL cs with
      | [] =>
        have hnil : cs = [] := by
          have := si_flatten cs
          rw [h] at this
          simpa using this.symm
        subst hnil
        simp [trimAllNlL, hc, Option.some_inj]
      | l :: ls =>
        have hne : cs ≠ [] := by
          intro hcs
          subst hcs
          simp [splitInclusiveL] at h
        rw [← h]
        simp only [List.map_cons, List.flatten_cons, h, trimAll_cons hc]
        rw [show ((c :: trimAllNlL l ++ ['\n']) ++ ((ls.map fun t => trimAllNlL t ++ ['\n'])).flatten)
              = c :: ((trimAllNlL l ++ ['\n']) ++ ((ls.map fun t => trimAllNlL t ++ ['\n'])).flatten) from rfl]
        rw [show ((trimAllNlL l ++ ['\n']) ++ ((ls.map fun t => trimAllNlL t ++ ['\n'])).flatten)
              = (((l :: ls).map fun t => trimAllNlL t ++ ['\n'])).flatten from rfl]
        rw [← h, ih]
        match cs, hne with
        | x :: xs, _ =>
          rw [List.getLast?_cons_cons]
          simp

theorem tokens_strip_eq_trim (s : String) (hs : '\r' ∉ s.data) :
    ∀ t ∈ tokensOf s, stripEnding t = trimAllNl t := by
  intro t ht
  unfold tokensOf at ht
  obtain ⟨l, hl, rfl⟩ := List.mem_map.mp ht
  have hr : '\r' ∉ l := by
    intro hmem
    apply hs
    rw [← si_flatten s.data]
    exact List.mem_flatten.mpr ⟨l, hl, hmem⟩
  have hn : '\n' ∉ l.dropLast := si_wf s.data l hl
  show String.mk (stripEndingL l) = String.mk (trimAllNlL l)
  rw [strip_eq_trim l hr hn]

theorem concat_trim_tokens (s : String) :
    concatNl ((tokensOf s).map trimAllNl) = withNl s := by
  apply sext
  rw [concatNl_data]
  unfold tokensOf
  rw [List.map_map, List.map_map]
  have hcomp :
      (((fun l => l.data ++ ['\n']) ∘ trimAllNl) ∘ String.mk)
        = fun t => trimAllNlL t ++ ['\n'] := rfl
  rw [hcomp, recon_tokens]
  unfold withNl
  by_cases hcond : s.data = [] ∨ s.data.getLast? = some '\n'
  · rw [if_pos hcond, if_pos hcond]
    simp
  · rw [if_neg hcond, if_neg hcond, sdata_append]

/-! ## Properties of the LCS diff -/

theorem baseToks_map_ins (ys : List String) :
    baseToks (ys.map Change.Insert) = [] := by
  induction ys with
  | nil => rfl
  | cons y ys ih => simpa [baseToks] using ih

theorem targetToks_map_ins (ys : List String) :
    targetToks (ys.map Change.Insert) = ys := by
  induction ys with
  | nil => rfl
  | cons y ys ih => simpa [targetToks] using ih

theorem baseToks_lcsDiffF :
    ∀ (fuel : Nat) (xs ys : List String), xs.length + ys.length ≤ fuel →
      baseToks (lcsDiffF fuel xs ys) = xs := by
  intro fuel
  induction fuel with
  | zero =>
    intro xs ys h
    match xs with
    | [] => rfl
    | x :: xs => simp at h
  | succ fuel ih =>
    intro xs ys h
    match xs, ys with
    | [], ys => simp [lcsDiffF, baseToks_map_ins]
    | x :: xs, [] =>
      rw [lcsDiffF]
      simp only [baseToks, List.cons.injEq, true_and]
      apply ih
      simp at h ⊢
      omega
    | x :: xs, y :: ys =>
      rw [lcsDiffF]
      simp only [List.length_cons] at h
      by_cases hxy : x = y
      · rw [if_pos hxy]
        simp only [baseToks, List.cons.injEq, true_and]
        apply ih
        omega
      · rw [if_neg hxy]
        by_cases hle : lcsLen (x :: xs) ys ≤ lcsLen xs (y :: ys)
        · rw [if_pos hle]
          simp only [baseToks, List.cons.injEq, true_and]
          apply ih
          simp only [List.length_cons]
          omega
        · rw [if_neg hle]
          simp only [baseToks]
          apply ih
          simp only [List.length_cons]
          omega

theorem targetToks_lcsDiffF :
    ∀ (fuel : Nat) (xs ys : List String), xs.length + ys.length ≤ fuel →
      targetToks (lcsDiffF fuel xs ys) = ys := by
  intro fuel
  induction fuel with
  | zero =>
    intro xs ys h
    match xs, ys with
    | [], [] => rfl
    | [], y :: ys => simp at h
    | x :: xs, _ => simp at h
  | succ fuel ih =>
    intro xs ys h
    match xs, ys with
    | [], ys => simp [lcsDiffF, targetToks_map_ins]
    | x :: xs, [] =>
      rw [lcsDiffF]
      simp only [targetToks]
      apply ih
      simp at h ⊢
      omega
    | x :: xs, y :: ys =>
      rw [lcsDiffF]
      simp only [List.length_cons] at h
      by_cases hxy : x = y
      · rw [if_pos hxy]
        simp only [targetToks, hxy, List.cons.injEq, true_and]
        apply ih
        omega
      · rw [if_neg hxy]
        by_cases hle : lcsLen (x :: xs) ys ≤ lcsLen xs (y :: ys)
        · rw [if_pos hle]
          simp only [targetToks]
          apply ih
          simp only [List.length_cons]
          omega
        · rw [if_neg hle]
          simp only [targetToks, List.cons.injEq, true_and]
          apply ih
          simp only [List.length_cons]
          omega

theorem lcsDiffF_refl :
    ∀ (fuel : Nat) (xs : List String), xs.length ≤ fuel →
      lcsDiffF fuel xs xs = xs.map Change.Equal := by
  intro fuel
  induction fuel with
  | zero =>
    intro xs h
    match xs with
    | [] => rfl
    | x :: xs => simp at h
  | succ fuel ih =>
    intro xs h
    match xs with
    | [] => rfl
    | x :: xs =>
      rw [lcsDiffF, if_pos rfl]
      simp only [List.map_cons, List.cons.injEq, true_and]
      apply ih
      simp at h
      omega

theorem baseToks_lcsDiff (xs ys : List String) :
    baseToks (lcsDiff xs ys) = xs :=
  baseToks_lcsDiffF _ xs ys (Nat.le_refl _)

theorem targetToks_lcsDiff (xs ys : List String) :
    targetToks (lcsDiff xs ys) = ys :=
  targetToks_lcsDiffF _ xs ys (Nat.le_refl _)

theorem lcsDiff_refl (xs : List String) :
    lcsDiff xs xs = xs.map Change.Equal :=
  lcsDiffF_refl _ xs (by omega)

/-! ## Properties of `compute_edits` -/

theorem buildOps_all_equal :
    ∀ (ts : List String) (n bi : Nat),
      buildOps n bi [] [] (ts.map Change.Equal)
        = (List.range' bi ts.length).map EditOp.Kept := by
  intro ts
  induction ts with
  | nil => intro n bi; rfl
  | cons t ts ih =>
    intro n bi
    simp only [List.map_cons, buildOps, flush_pending, List.length_cons,
      List.range'_succ, List.nil_append, ih]

theorem rustLines_length (s : String) :
    (rustLines s).length = (tokensOf s).length := by
  simp [rustLines]

theorem compute_edits_self (b : String) :
    compute_edits b b
      = (List.range' 0 (rustLines b).length).map EditOp.Kept := by
  unfold compute_edits
  rw [lcsDiff_refl, buildOps_all_equal, rustLines_length]

theorem buildOps_getInsert_lt :
    ∀ (chs : List Change) (n bi : Nat) (pd : List Nat) (pins : List String)
      (j : Nat), j < bi → bi + (baseToks chs).length ≤ n →
      get_insert_at (buildOps n bi pd pins chs) j
        = ([], buildOps n bi pd pins chs) := by
  intro chs
  induction chs with
  | nil =>
    intro n bi pd pins j hj hn
    simp only [baseToks, List.length_nil, Nat.add_zero] at hn
    simp only [buildOps]
    match pd, pins with
    | [], [] => rfl
    | [], p :: ps => exact gia_ins_ne (by omega) _ _
    | d :: ds, [] => rfl
    | d :: ds, p :: ps => rfl
  | cons ch rest ih =>
    intro n bi pd pins j hj hn
    cases ch with
    | Equal t =>
      simp only [baseToks, List.length_cons] at hn
      simp only [buildOps]
      match pd, pins with
      | [], [] =>
        simp only [flush_pending, List.nil_append]
        rfl
      | [], p :: ps =>
        simp only [flush_pending, List.singleton_append]
        exact gia_ins_ne (by omega) _ _
      | d :: ds, [] =>
        simp only [flush_pending, List.cons_append]
        rfl
      | d :: ds, p :: ps =>
        simp only [flush_pending, List.cons_append]
        rfl
    | Delete t =>
      simp only [baseToks, List.length_cons] at hn
      simp only [buildOps]
      by_cases hcond : pins ≠ [] ∧ pd = []
      · rw [if_pos hcond, if_pos hcond]
        simp only [List.singleton_append]
        exact gia_ins_ne (by omega) _ _
      · rw [if_neg hcond, if_neg hcond]
        simp only [List.nil_append]
        exact ih n (bi + 1) _ _ j (Nat.lt_succ_of_lt hj) (by omega)
    | Insert v =>
      simp only [baseToks] at hn
      simp only [buildOps]
      exact ih n bi _ _ j hj hn

theorem applyOps_deleted_run :
    ∀ (dls : List String) (j : Nat) (rem' : List String) (ops' : List EditOp),
      applyOps j (dls ++ rem')
        ((List.range' j dls.length).map EditOp.Deleted ++ ops')
      = applyOps (j + dls.length) rem' ops' := by
  intro dls
  induction dls with
  | nil => intro j rem' ops'; simp
  | cons d dls ih =>
    intro j rem' ops'
    simp only [List.length_cons, List.range'_succ, List.map_cons,
      List.cons_append]
    rw [applyOps_cons, gia_deleted, gaa_deleted]
    simp only [List.nil_append]
    rw [ih (j + 1) rem' ops']
    have harith : j + 1 + dls.length = j + (dls.length + 1) := by omega
    rw [harith]

theorem applyOps_insert_front (abi : Nat) (pins : List String)
    (rem : List String) (ops : List EditOp)
    (h : get_insert_at ops abi = ([], ops)) :
    applyOps abi rem (EditOp.Insert abi pins :: ops)
      = pins ++ applyOps abi rem ops := by
  cases rem with
  | nil =>
    rw [applyOps_nil, applyOps_nil, gia_ins_eq, h]
  | cons bl rest =>
    rw [applyOps_cons, applyOps_cons, gia_ins_eq, h]
    simp [List.append_assoc]

set_option maxHeartbeats 1000000 in
theorem applyOps_buildOps :
    ∀ (chs : List Change) (abi : Nat) (pdT pins : List String) (n : Nat),
      n = abi + pdT.length + (baseToks chs).length →
      applyOps abi (pdT.map stripEnding ++ (baseToks chs).map stripEnding)
        (buildOps n (abi + pdT.length) (List.range' abi pdT.length) pins chs)
      = pins ++ outOf chs := by
  intro chs
  induction chs with
  | nil =>
    intro abi pdT pins n hn
    simp only [baseToks, List.length_nil, Nat.add_zero] at hn
    simp only [baseToks, outOf, List.map_nil, List.append_nil, buildOps]
    match pdT with
    | [] =>
      simp only [List.length_nil, List.range'_zero, List.map_nil, Nat.add_zero]
      match pins with
      | [] => rfl
      | p :: ps =>
        subst hn
        simp only [List.length_nil, Nat.add_zero, flush_pending]
        rw [applyOps_nil, gia_ins_eq, gia_nil]
        simp
    | d :: pdT' =>
      match pins with
      | [] =>
        have hflush : flush_pending (List.range' abi (d :: pdT').length) [] n
            = (List.range' abi (d :: pdT').length).map EditOp.Deleted := by
          simp only [List.length_cons, List.range'_succ]
          rfl
        rw [hflush]
        have hrun := applyOps_deleted_run ((d :: pdT').map stripEnding) abi [] []
        simp only [List.append_nil, List.length_map] at hrun
        rw [hrun]
        rfl
      | p :: ps =>
        have hflush : flush_pending (List.range' abi (d :: pdT').length) (p :: ps) n
            = EditOp.Replaced abi (p :: ps)
              :: (List.range' (abi + 1) pdT'.length).map EditOp.Deleted := by
          simp only [List.length_cons, List.range'_succ]
          rfl
        rw [hflush]
        simp only [List.map_cons]
        rw [applyOps_cons, gia_replaced, gaa_replaced]
        simp only [List.nil_append]
        have hrun := applyOps_deleted_run (pdT'.map stripEnding) (abi + 1) [] []
        simp only [List.append_nil, List.length_map] at hrun
        rw [hrun]
        simp [applyOps_nil, gia_nil]
  | cons ch rest ih =>
    intro abi pdT pins n hn
    cases ch with
    | Equal t =>
      simp only [baseToks, List.length_cons] at hn
      simp only [baseToks, outOf, List.map_cons, buildOps]
      match pdT with
      | [] =>
        have hih := ih (abi + 1) [] [] n
          (by simp only [List.length_nil] at hn ⊢; omega)
        simp only [List.length_nil, Nat.add_zero, List.range'_zero,
          List.map_nil, List.nil_append] at hih
        match pins with
        | [] =>
          simp only [List.length_nil, Nat.add_zero, List.range'_zero,
            flush_pending, List.map_nil, List.nil_append]
          rw [applyOps_cons, gia_kept, gaa_kept]
          simp only [List.nil_append]
          rw [hih]
          simp
        | p :: ps =>
          simp only [List.length_nil, Nat.add_zero, List.range'_zero,
            flush_pending, List.map_nil, List.nil_append,
            List.singleton_append]
          rw [applyOps_insert_front _ _ _ _ (by rw [gia_kept])]
          rw [applyOps_cons, gia_kept, gaa_kept]
          simp only [List.nil_append]
          rw [hih]
          simp
      | d :: pdT' =>
        have hih := ih (abi + (d :: pdT').length + 1) [] [] n
          (by simp only [List.length_nil]; omega)
        simp only [List.length_nil, Nat.add_zero, List.range'_zero,
          List.map_nil, List.nil_append] at hih
        match pins with
        | [] =>
          have hflush : flush_pending (List.range' abi (d :: pdT').length) []
              (abi + (d :: pdT').length)
              = (List.range' abi (d :: pdT').length).map EditOp.Deleted := by
            simp only [List.length_cons, List.range'_succ]
            rfl
          rw [hflush]
          have hrun := applyOps_deleted_run ((d :: pdT').map stripEnding) abi
            (stripEnding t :: (baseToks rest).map stripEnding)
            (EditOp.Kept (abi + (d :: pdT').length)
              :: buildOps n (abi + (d :: pdT').length + 1) [] [] rest)
          simp only [List.length_map] at hrun
          rw [hrun]
          rw [applyOps_cons, gia_kept, gaa_kept]
          simp only [List.nil_append]
          rw [hih]
          simp
        | p :: ps =>
          have hflush : flush_pending (List.range' abi (d :: pdT').length)
              (p :: ps) (abi + (d :: pdT').length)
              = EditOp.Replaced abi (p :: ps)
                :: (List.range' (abi + 1) pdT'.length).map EditOp.Deleted := by
            simp only [List.length_cons, List.range'_succ]
            rfl
          rw [hflush]
          simp only [List.map_cons, List.cons_append]
          rw [applyOps_cons, gia_replaced, gaa_replaced]
          simp only [List.nil_append]
          have hrun := applyOps_deleted_run (pdT'.map stripEnding) (abi + 1)
            (stripEnding t :: (baseToks rest).map stripEnding)
            (EditOp.Kept (abi + (d :: pdT').length)
              :: buildOps n (abi + (d :: pdT').length + 1) [] [] rest)
          simp only [List.length_map] at hrun
          rw [hrun]
          have hidx : abi + 1 + pdT'.length = abi + (d :: pdT').length := by
            simp only [List.length_cons]
            omega
          rw [hidx]
          rw [applyOps_cons, gia_kept, gaa_kept]
          simp only [List.nil_append]
          rw [hih]
          simp
    | Delete t =>
      simp only [baseToks, List.length_cons] at hn
      simp only [baseToks, outOf, List.map_cons, buildOps]
      have hsnoc : List.range' abi pdT.length ++ [abi + pdT.length]
          = List.range' abi (pdT.length + 1) :=
        (List.range'_1_concat abi pdT.length).symm
      by_cases hcond : pins ≠ [] ∧ List.range' abi pdT.length = []
      · have hpdT : pdT = [] :=
          List.length_eq_zero.mp (List.range'_eq_nil.mp hcond.2)
        subst hpdT
        match pins, hcond.1 with
        | p :: ps, _ =>
          rw [if_pos hcond, if_pos hcond]
          simp only [List.length_nil, Nat.add_zero, List.range'_zero,
            List.map_nil, List.nil_append, List.singleton_append]
          rw [applyOps_insert_front abi (p :: ps) _ _
            (buildOps_getInsert_lt rest n (abi + 1) [abi] [] abi
              (Nat.lt_succ_self abi)
              (by simp only [List.length_nil] at hn; omega))]
          have hih := ih abi [t] [] n
            (by simp only [List.length_nil, List.length_cons] at hn ⊢; omega)
          simp only [List.length_cons, List.length_nil, Nat.zero_add,
            Nat.add_zero, List.map_cons, List.map_nil, List.range'_one,
            List.singleton_append] at hih
          rw [hih]
          simp
      · rw [if_neg hcond, if_neg hcond]
        simp only [List.nil_append]
        rw [hsnoc]
        have hih := ih abi (pdT ++ [t]) pins n
          (by simp only [List.length_append, List.length_cons,
                List.length_nil] at hn ⊢; omega)
        simp only [List.length_append, List.length_cons, List.length_nil,
          Nat.add_zero, List.map_append, List.map_cons, List.map_nil,
          List.append_assoc, List.singleton_append] at hih
        have hidx : abi + (pdT.length + 1) = abi + pdT.length + 1 := by omega
        rw [hidx] at hih
        rw [hih]
    | Insert v =>
      simp only [baseToks, outOf] at hn ⊢
      simp only [buildOps]
      rw [ih abi pdT (pins ++ [trimAllNl v]) n hn]
      simp

theorem applyOps_compute_edits (b t : String) :
    applyOps 0 (rustLines b) (compute_edits b t)
      = outOf (lcsDiff (tokensOf b) (tokensOf t)) := by
  unfold compute_edits
  have h := applyOps_buildOps (lcsDiff (tokensOf b) (tokensOf t)) 0 [] []
    (rustLines b).length
    (by
      rw [baseToks_lcsDiff, rustLines_length]
      simp)
  simpa [rustLines, baseToks_lcsDiff] using h

/-! ## The merged output of one side's script -/

theorem outOf_eq_trim :
    ∀ chs : List Change,
      (∀ t, Change.Equal t ∈ chs → stripEnding t = trimAllNl t) →
      outOf chs = (targetToks chs).map trimAllNl := by
  intro chs
  induction chs with
  | nil => intro _; rfl
  | cons ch rest ih =>
    intro h
    have hrest := ih (fun t ht => h t (List.mem_cons_of_mem _ ht))
    cases ch with
    | Equal t =>
      simp [outOf, targetToks, h t (List.mem_cons_self _ _), hrest]
    | Delete t => simp [outOf, targetToks, hrest]
    | Insert t => simp [outOf, targetToks, hrest]

theorem equal_mem_baseToks :
    ∀ (chs : List Change) (t : String),
      Change.Equal t ∈ chs → t ∈ baseToks chs := by
  intro chs
  induction chs with
  | nil => intro t ht; simp at ht
  | cons ch rest ih =>
    intro t ht
    rcases List.mem_cons.mp ht with heq | ht2
    · rw [← heq]
      simp [baseToks]
    · cases ch with
      | Equal s => exact List.mem_cons_of_mem _ (ih t ht2)
      | Delete s => exact List.mem_cons_of_mem _ (ih t ht2)
      | Insert s => simpa [baseToks] using ih t ht2

theorem merged_target (b t : String) (hb : '\r' ∉ b.data) :
    concatNl (applyOps 0 (rustLines b) (compute_edits b t)) = withNl t := by
  rw [applyOps_compute_edits]
  rw [outOf_eq_trim _ (fun tok htok =>
    tokens_strip_eq_trim b hb tok
      (baseToks_lcsDiff (tokensOf b) (tokensOf t) ▸
        equal_mem_baseToks _ tok htok))]
  rw [targetToks_lcsDiff]
  exact concat_trim_tokens t

/-! ## Conflict-freeness and merged lines of the walk -/

theorem insertHunks_left_nil_facts (ri : List String) :
    (∀ x ∈ insertHunks [] ri, isConflictHunk x = false)
    ∧ mergedLines (insertHunks [] ri) = ri := by
  by_cases h : ri = [] <;>
    simp [insertHunks_left_nil, h, mergedLines, hunkLines, isConflictHunk]

theorem insertHunks_right_nil_facts (li : List String) :
    (∀ x ∈ insertHunks li [], isConflictHunk x = false)
    ∧ mergedLines (insertHunks li []) = li := by
  by_cases h : li = [] <;>
    simp [insertHunks_right_nil, h, mergedLines, hunkLines, isConflictHunk]

theorem insertHunks_self_facts (li : List String) :
    (∀ x ∈ insertHunks li li, isConflictHunk x = false)
    ∧ mergedLines (insertHunks li li) = li := by
  by_cases h : li = [] <;>
    simp [insertHunks_self, h, mergedLines, hunkLines, isConflictHunk]

theorem classify_keepL_facts (bl : String) (a : Edit) :
    (∀ x ∈ classify bl Edit.Keep a, isConflictHunk x = false)
    ∧ mergedLines (classify bl Edit.Keep a)
        = (match a with
           | Edit.Keep => [bl]
           | Edit.Replace ls => ls
           | Edit.Delete => []) := by
  cases a <;> simp [classify, mergedLines, hunkLines, isConflictHunk]

theorem classify_keepR_facts (bl : String) (a : Edit) :
    (∀ x ∈ classify bl a Edit.Keep, isConflictHunk x = false)
    ∧ mergedLines (classify bl a Edit.Keep)
        = (match a with
           | Edit.Keep => [bl]
           | Edit.Replace ls => ls
           | Edit.Delete => []) := by
  cases a <;> simp [classify, mergedLines, hunkLines, isConflictHunk]

theorem classify_same_facts (bl : String) (a : Edit) :
    (∀ x ∈ classify bl a a, isConflictHunk x = false)
    ∧ mergedLines (classify bl a a)
        = (match a with
           | Edit.Keep => [bl]
           | Edit.Replace ls => ls
           | Edit.Delete => []) := by
  cases a <;> simp [classify, mergedLines, hunkLines, isConflictHunk]

theorem walk_leftKept :
    ∀ (rem : List String) (bi : Nat) (re : List EditOp),
      (∀ x ∈ walkAux bi rem ((List.range' bi rem.length).map EditOp.Kept) re,
        isConflictHunk x = false)
      ∧ mergedLines
          (walkAux bi rem ((List.range' bi rem.length).map EditOp.Kept) re)
        = applyOps bi rem re := by
  intro rem
  induction rem with
  | nil =>
    intro bi re
    simp only [List.length_nil, List.range'_zero, List.map_nil]
    rw [walkAux_nil, gia_nil, applyOps_nil]
    exact insertHunks_left_nil_facts _
  | cons bl rest ih =>
    intro bi re
    simp only [List.length_cons, List.range'_succ, List.map_cons]
    rw [walkAux_cons, gia_kept, gaa_kept, applyOps_cons]
    obtain ⟨ih1, ih2⟩ :=
      ih (bi + 1) (get_action_at (get_insert_at re bi).2 bi).2
    obtain ⟨hi1, hi2⟩ :=
      insertHunks_left_nil_facts (get_insert_at re bi).1
    obtain ⟨hc1, hc2⟩ :=
      classify_keepL_facts bl (get_action_at (get_insert_at re bi).2 bi).1
    constructor
    · intro x hx
      rcases List.mem_append.mp hx with hx | hx
      · rcases List.mem_append.mp hx with hx | hx
        · exact hi1 x hx
        · exact hc1 x hx
      · exact ih1 x hx
    · rw [mergedLines_append, mergedLines_append, hi2, hc2, ih2]

theorem walk_rightKept :
    ∀ (rem : List String) (bi : Nat) (le : List EditOp),
      (∀ x ∈ walkAux bi rem le ((List.range' bi rem.length).map EditOp.Kept),
        isConflictHunk x = false)
      ∧ mergedLines
          (walkAux bi rem le ((List.range' bi rem.length).map EditOp.Kept))
        = applyOps bi rem le := by
  intro rem
  induction rem with
  | nil =>
    intro bi le
    simp only [List.length_nil, List.range'_zero, List.map_nil]
    rw [walkAux_nil, gia_nil, applyOps_nil]
    exact insertHunks_right_nil_facts _
  | cons bl rest ih =>
    intro bi le
    simp only [List.length_cons, List.range'_succ, List.map_cons]
    rw [walkAux_cons, gia_kept, gaa_kept, applyOps_cons]
    obtain ⟨ih1, ih2⟩ :=
      ih (bi + 1) (get_action_at (get_insert_at le bi).2 bi).2
    obtain ⟨hi1, hi2⟩ :=
      insertHunks_right_nil_facts (get_insert_at le bi).1
    obtain ⟨hc1, hc2⟩ :=
      classify_keepR_facts bl (get_action_at (get_insert_at le bi).2 bi).1
    constructor
    · intro x hx
      rcases List.mem_append.mp hx with hx | hx
      · rcases List.mem_append.mp hx with hx | hx
        · exact hi1 x hx
        · exact hc1 x hx
      · exact ih1 x hx
    · rw [mergedLines_append, mergedLines_append, hi2, hc2, ih2]

theorem walk_same :
    ∀ (rem : List String) (bi : Nat) (es : List EditOp),
      (∀ x ∈ walkAux bi rem es es, isConflictHunk x = false)
      ∧ mergedLines (walkAux bi rem es es) = applyOps bi rem es := by
  intro rem
  induction rem with
  | nil =>
    intro bi es
    rw [walkAux_nil, applyOps_nil]
    exact insertHunks_self_facts _
  | cons bl rest ih =>
    intro bi es
    rw [walkAux_cons, applyOps_cons]
    obtain ⟨ih1, ih2⟩ :=
      ih (bi + 1) (get_action_at (get_insert_at es bi).2 bi).2
    obtain ⟨hi1, hi2⟩ :=
      insertHunks_self_facts (get_insert_at es bi).1
    obtain ⟨hc1, hc2⟩ :=
      classify_same_facts bl (get_action_at (get_insert_at es bi).2 bi).1
    constructor
    · intro x hx
      rcases List.mem_append.mp hx with hx | hx
      · rcases List.mem_append.mp hx with hx | hx
        · exact hi1 x hx
        · exact hc1 x hx
      · exact ih1 x hx
    · rw [mergedLines_append, mergedLines_append, hi2, hc2, ih2]

/-! ## One-sided and convergent merges -/

theorem resolved_of_applyOps (s : MergeScenario)
    (hnc : ∀ x ∈ preHunks s, isConflictHunk x = false)
    (hml : mergedLines (preHunks s)
      = applyOps 0 (rustLines s.base) (compute_edits s.base s.right))
    (hb : '\r' ∉ s.base.data) :
    diff3_merge s = MergeResult.Resolved (withNl s.right) := by
  have hnc2 : ∀ x ∈ diff3_hunks s, isConflictHunk x = false :=
    coalesce_noConf _ hnc
  rw [diff3_merge_noConf s hnc2]
  have : mergedLines (diff3_hunks s) = mergedLines (preHunks s) :=
    coalesce_mergedLines _
  rw [this, hml, merged_target s.base s.right hb]

/-- C1 (amended): provided the base contains no carriage-return byte,
`diff3_merge (b, b, r)` resolves to `r` with a final newline appended
when missing, and `diff3_merge (b, l, b)` resolves to `l` likewise;
equality with `r` (resp. `l`) is byte-exact exactly when the text is
empty or already newline-terminated (stable lines pass through Rust's
`str::lines`, which also drops a `\r` before the `\n` — hence the
carriage-return proviso). -/
theorem c1_one_sided (b l r : String) (hb : '\r' ∉ b.data) :
    diff3_merge ⟨b, b, r⟩ = MergeResult.Resolved (withNl r)
    ∧ diff3_merge ⟨b, l, b⟩ = MergeResult.Resolved (withNl l) := by
  constructor
  · have hkept : compute_edits b b
        = (List.range' 0 (rustLines b).length).map EditOp.Kept :=
      compute_edits_self b
    have hw := walk_leftKept (rustLines b) 0 (compute_edits b r)
    apply resolved_of_applyOps ⟨b, b, r⟩
    · intro x hx
      apply hw.1 x
      unfold preHunks at hx
      rw [hkept] at hx
      exact hx
    · unfold preHunks
      rw [hkept]
      exact hw.2
    · exact hb
  · have hkept : compute_edits b b
        = (List.range' 0 (rustLines b).length).map EditOp.Kept :=
      compute_edits_self b
    have hw := walk_rightKept (rustLines b) 0 (compute_edits b l)
    have hnc : ∀ x ∈ preHunks ⟨b, l, b⟩, isConflictHunk x = false := by
      intro x hx
      apply hw.1 x
      unfold preHunks at hx
      rw [hkept] at hx
      exact hx
    have hnc2 : ∀ x ∈ diff3_hunks ⟨b, l, b⟩, isConflictHunk x = false :=
      coalesce_noConf _ hnc
    rw [diff3_merge_noConf _ hnc2]
    have hml : mergedLines (diff3_hunks ⟨b, l, b⟩)
        = applyOps 0 (rustLines b) (compute_edits b l) := by
      have h1 : mergedLines (diff3_hunks ⟨b, l, b⟩)
          = mergedLines (preHunks ⟨b, l, b⟩) := coalesce_mergedLines _
      rw [h1]
      unfold preHunks
      rw [hkept]
      exact hw.2
    rw [hml, merged_target b l hb]

/-- C1 counterexample: byte-exact equality with the changed side fails —
a source without a final newline gains one, and a CR/LF base loses the
`\r` on its stable line (so even newline-appending fails there). -/
theorem c1_counterexample :
    diff3_merge ⟨"", "", "a"⟩ ≠ MergeResult.Resolved "a"
    ∧ diff3_merge ⟨"", "", "a"⟩ = MergeResult.Resolved "a\n"
    ∧ diff3_merge ⟨"a\r\n", "a\r\n", "a\r\nx"⟩
        ≠ MergeResult.Resolved "a\r\nx"
    ∧ diff3_merge ⟨"a\r\n", "a\r\n", "a\r\nx"⟩
        ≠ MergeResult.Resolved (withNl "a\r\nx")
    ∧ diff3_merge ⟨"a\r\n", "a\r\n", "a\r\nx"⟩
        = MergeResult.Resolved "a\nx\n" := by
  refine ⟨by decide, by decide, by decide, by decide, by decide⟩

/-- C1 witness: the amended theorem applied at concrete inputs. -/
theorem c1_witness :
    diff3_merge ⟨"k\n", "k\n", "y\nz"⟩ = MergeResult.Resolved (withNl "y\nz")
    ∧ diff3_merge ⟨"k\n", "w", "k\n"⟩ = MergeResult.Resolved (withNl "w") :=
  ⟨(c1_one_sided "k\n" "w" "y\nz" (by decide)).1,
   (c1_one_sided "k\n" "w" "k\n" (by decide)).2⟩

/-- C2 (amended): when left and right are equal, the merge always
resolves — to the common side with a final newline appended when
missing, provided the base has no carriage-return byte; at the hunk
level a convergent replacement yields a single `LeftChanged` hunk, but
a convergent deletion (both sides delete the same run) yields *no* hunk
at all — in particular never a `Conflict`. -/
theorem c2_convergent (b l r : String) (hlr : l = r) (hb : '\r' ∉ b.data) :
    diff3_merge ⟨b, l, r⟩ = MergeResult.Resolved (withNl l)
    ∧ (∀ (s : String) (ls : List String),
        classify s (Edit.Replace ls) (Edit.Replace ls)
          = [Diff3Hunk.LeftChanged ls])
    ∧ (∀ s : String, classify s Edit.Delete Edit.Delete = []) := by
  subst hlr
  refine ⟨?_, fun s ls => by simp [classify], fun s => rfl⟩
  have hw := walk_same (rustLines b) 0 (compute_edits b l)
  have hnc : ∀ x ∈ preHunks ⟨b, l, l⟩, isConflictHunk x = false := hw.1
  have hnc2 : ∀ x ∈ diff3_hunks ⟨b, l, l⟩, isConflictHunk x = false :=
    coalesce_noConf _ hnc
  rw [diff3_merge_noConf _ hnc2]
  have hml : mergedLines (diff3_hunks ⟨b, l, l⟩)
      = applyOps 0 (rustLines b) (compute_edits b l) := by
    have h1 : mergedLines (diff3_hunks ⟨b, l, l⟩)
        = mergedLines (preHunks ⟨b, l, l⟩) := coalesce_mergedLines _
    rw [h1]
    exact hw.2
  rw [hml, merged_target b l hb]

/-- C2 counterexample: with base `x/d/y` and both sides deleting `d`
(so left equals right), the result is `Resolved "x\ny\n"`, not
`Resolved l = Resolved "x\ny"` byte-exactly; and the hunk list is a
single `Stable` hunk — the convergent deletion produced no
`LeftChanged` hunk. -/
theorem c2_counterexample :
    diff3_merge ⟨"x\nd\ny", "x\ny", "x\ny"⟩ ≠ MergeResult.Resolved "x\ny"
    ∧ diff3_merge ⟨"x\nd\ny", "x\ny", "x\ny"⟩ = MergeResult.Resolved "x\ny\n"
    ∧ diff3_hunks ⟨"x\nd\ny", "x\ny", "x\ny"⟩
        = [Diff3Hunk.Stable ["x", "y"]] := by
  refine ⟨by decide, by decide, by decide⟩

/-- C2 witness: the amended theorem applied at a concrete input. -/
theorem c2_witness :
    diff3_merge ⟨"k\n", "q\nz", "q\nz"⟩
      = MergeResult.Resolved (withNl "q\nz") :=
  (c2_convergent "k\n" "q\nz" "q\nz" rfl (by decide)).1

/-- C4 (amended): the diff layer's tokenizer splits only at `'\n'` and
keeps every byte — including `'\r'` — inside the token, and inserted or
replaced lines keep a `'\r'` before the newline (`trim_end_matches`
removes only `'\n'`); but the base-line splitter used for `Stable` and
conflict-base payloads is Rust's `str::lines`, which strips a `'\r'`
preceding the separator, so CR/LF endings survive only on lines coming
from a changed side, not on stable lines. -/
theorem c4_crlf :
    (∀ s : String, concatAll (tokensOf s) = s)
    ∧ (∀ s : String, rustLines s = (tokensOf s).map stripEnding)
    ∧ stripEnding "a\r\n" = "a"
    ∧ trimAllNl "a\r\n" = "a\r"
    ∧ diff3_merge ⟨"", "", "a\r\nb"⟩ = MergeResult.Resolved "a\r\nb\n"
    ∧ diff3_merge ⟨"a\r\n", "a\r\n", "a\r\n"⟩ = MergeResult.Resolved "a\n" := by
  refine ⟨?_, fun s => rfl, by decide, by decide, by decide, by decide⟩
  intro s
  have hdata : ∀ ll : List (List Char),
      (concatAll (ll.map String.mk)).data = ll.flatten := by
    intro ll
    induction ll with
    | nil => rfl
    | cons x xs ih => simp [concatAll, sdata_append, ih]
  apply sext
  unfold tokensOf
  rw [hdata, si_flatten]

/-- C4 counterexample: a CR/LF line shared by all three sides comes out
as a bare LF line — CR/LF does not pass through the merge unchanged. -/
theorem c4_counterexample :
    diff3_merge ⟨"a\r\n", "a\r\n", "a\r\n"⟩ = MergeResult.Resolved "a\n"
    ∧ "a\n" ≠ "a\r\n" := by
  refine ⟨by decide, by decide⟩

end MergeEngine
